import Mathlib

/-!
Verification of the structured-document mutation engine of `readme_updater.py`
(`READMEUpdater`): section parsing, feature/configuration merging, structured
documentation entries, changelog merging and document rebuilding.

The Python code is shallowly embedded: documents are `String`s, the parsed
section table is an ordered association list mirroring a Python 3.7+ `dict`
(insertion order, overwrite-in-place), and every regex used by the source is
replaced by an executable scanner implementing the exact same matching
semantics (leftmost match, greedy/lazy groups, lookaheads, backtracking) for
the concrete patterns appearing in the source.  The current date, read from
the process clock in the source, is passed as an explicit `today` parameter.
-/

namespace ReadmeUpdater

/-- Python `str` whitespace characters (`\s` for the ASCII documents at hand). -/
def pyIsSpace (c : Char) : Bool :=
  c = ' ' || c = '\t' || c = '\n' || c = '\r' || c = '\x0b' || c = '\x0c'

/-- Bullet marker characters of the pattern `[-*+]` in `_remove_features`. -/
def isMarker (c : Char) : Bool :=
  c = '-' || c = '*' || c = '+'

/-- `lpre n h` : the char list `h` starts with `n`. -/
def lpre : List Char → List Char → Bool
  | [], _ => true
  | _ :: _, [] => false
  | a :: as, b :: bs => a = b && lpre as bs

/-- `loccurs n h` : `n` occurs as a contiguous substring of `h`
(Python's `n in h`). -/
def loccurs (needle : List Char) : List Char → Bool
  | [] => lpre needle []
  | c :: rest => lpre needle (c :: rest) || loccurs needle rest

/-- Fuel-driven worker for `str.replace`: replaces every (leftmost,
non-overlapping) occurrence of `pat` by `repl`. -/
def replFuel (pat repl : List Char) : Nat → List Char → List Char
  | 0, s => s
  | _ + 1, [] => []
  | f + 1, c :: s =>
    if pat ≠ [] && lpre pat (c :: s) then
      repl ++ replFuel pat repl f (List.drop (pat.length - 1) s)
    else
      c :: replFuel pat repl f s

/-- Python `s.replace(pat, repl)` (all occurrences), for non-empty `pat`. -/
def lreplace (s pat repl : List Char) : List Char :=
  replFuel pat repl s.length s

/-- Python `s.split('\n')`. -/
def splitNlL : List Char → List (List Char)
  | [] => [[]]
  | c :: s =>
    if c = '\n' then [] :: splitNlL s
    else
      match splitNlL s with
      | [] => [[c]]
      | l :: ls => (c :: l) :: ls

/-- Python `s.splitlines(keepends=True)` for documents whose only line
boundary character is `'\n'`. -/
def splitKeepL : List Char → List (List Char)
  | [] => []
  | c :: s =>
    if c = '\n' then ['\n'] :: splitKeepL s
    else
      match splitKeepL s with
      | [] => [[c]]
      | l :: ls => (c :: l) :: ls

/-- Python `'\n'.join(lines)`. -/
def joinNlL : List (List Char) → List Char
  | [] => []
  | [l] => l
  | l :: ls => l ++ '\n' :: joinNlL ls

/-- Python `s.lstrip()` (on char lists). -/
def dropWs (s : List Char) : List Char :=
  s.dropWhile pyIsSpace

/-- Python `s.rstrip()` (on char lists). -/
def rstripL (s : List Char) : List Char :=
  (dropWs s.reverse).reverse

/-- Python `s.strip()` (on char lists). -/
def stripL (s : List Char) : List Char :=
  rstripL (dropWs s)

/-- Python `s.lower()` (ASCII). -/
def toLowerL (s : List Char) : List Char :=
  s.map Char.toLower

/-- String-level substring test: Python `sub in hay`. -/
def sContains (hay sub : String) : Bool :=
  loccurs sub.data hay.data

/-- String-level `str.lower`. -/
def sLower (s : String) : String :=
  String.mk (toLowerL s.data)

/-- String-level `str.rstrip`. -/
def sRstrip (s : String) : String :=
  String.mk (rstripL s.data)

/-- String-level `str.strip`. -/
def sStrip (s : String) : String :=
  String.mk (stripL s.data)

/-- `s.endswith(t)` (used only with `t = "\n"`). -/
def sEndsWith (s t : String) : Bool :=
  lpre t.data.reverse s.data.reverse

/-- Python `s.split('\n')` on strings. -/
def sSplitNl (s : String) : List String :=
  (splitNlL s.data).map String.mk

/-- Python `'\n'.join(lines)` on strings. -/
def sJoinNl (ls : List String) : String :=
  String.mk (joinNlL (ls.map String.data))

/-- Concatenation of a list of strings (Python `"".join` / `+=` loops). -/
def sFlat (ls : List String) : String :=
  String.mk (ls.map String.data).flatten

example : sSplitNl "a\nb\n" = ["a", "b", ""] := by decide
example : splitKeepL "a\nb".data = ["a\n".data, "b".data] := by decide
example : splitKeepL "a\n".data = ["a\n".data] := by decide
example : sJoinNl ["a", "", "b"] = "a\n\nb" := by decide
example : lreplace "xayaz".data "a".data "bb".data = "xbbybbz".data := by decide
example : sStrip " - A \t" = "- A" := by decide
example : loccurs "- A".data "- a\n".data = false := by decide

/-! ## Regex emulators

Executable counterparts of the concrete regular expressions used in
`readme_updater.py`, faithful to Python `re` semantics (verified against the
reference behaviour of `re.match`/`re.search`/`re.sub` on these patterns). -/

/-- `re.match(r'^(#{1,6})\s+(.+)$', line)` from `_parse_sections`: returns the
heading level and the *trimmed* title (the source applies `.strip()` to group
2).  A line matches exactly when it starts with 1–6 `#` characters followed by
a whitespace character and at least one further character. -/
def headerMatch (line : String) : Option (Nat × String) :=
  let cs := line.data
  let h := (cs.takeWhile (fun c => c = '#')).length
  if 1 ≤ h ∧ h ≤ 6 then
    match cs.drop h with
    | [] => none
    | c :: cs2 =>
      if pyIsSpace c ∧ cs2 ≠ [] then some (h, String.mk (stripL (c :: cs2)))
      else none
  else none

/-- `re.match(r'^#{1,6}\s+', line)` from `_insert_after_preamble`: 1–6 `#`
characters followed by at least one whitespace character. -/
def looseHeading (line : String) : Bool :=
  let cs := line.data
  let h := (cs.takeWhile (fun c => c = '#')).length
  decide (1 ≤ h ∧ h ≤ 6) &&
    (match cs.drop h with
     | [] => false
     | c :: _ => pyIsSpace c)

/-- Lazy group 2 of the version-block pattern
`({vh}[^\n]*\n)(.*?)(?=\n## |\Z)` (DOTALL): the shortest prefix of the
remaining text whose continuation starts with `"\n## "` or is the end of the
string. -/
def lazyBody : List Char → List Char
  | [] => []
  | c :: s =>
    if lpre "\n## ".data (c :: s) then []
    else c :: lazyBody s

/-- `re.search` for `({vh}[^\n]*\n)(.*?)(?=\n## |\Z)` (DOTALL): scans left to
right; at the first position where the literal `vh` is followed by a
(possibly empty) run of non-newline characters and a `'\n'`, returns
`(group 1, group 2)`.  A position where `vh` matches but no `'\n'` follows on
that line does not match (the scan continues). -/
def findVer (vh : List Char) : List Char → Option (List Char × List Char)
  | [] => none
  | c :: s =>
    if lpre vh (c :: s) then
      let after := List.drop vh.length (c :: s)
      let lineRest := after.takeWhile (fun x => x ≠ '\n')
      if lineRest.length < after.length then
        some (vh ++ lineRest ++ ['\n'], lazyBody (after.drop (lineRest.length + 1)))
      else findVer vh s
    else findVer vh s

/-- Lazy group 2 of the category pattern
`({cat_header}\n)(.*?)(?=\n### |\n## |\Z)` (DOTALL). -/
def lazyCatBody : List Char → List Char
  | [] => []
  | c :: s =>
    if lpre "\n### ".data (c :: s) || lpre "\n## ".data (c :: s) then []
    else c :: lazyCatBody s

/-- `re.search` for `({cat_header}\n)(.*?)(?=\n### |\n## |\Z)` (DOTALL):
returns group 2 of the leftmost match (`g1` is the literal
`cat_header ++ "\n"`). -/
def findCat (g1 : List Char) : List Char → Option (List Char)
  | [] => none
  | c :: s =>
    if lpre g1 (c :: s) then some (lazyCatBody (List.drop g1.length (c :: s)))
    else findCat g1 s

/-- Backtracking of `\s+` in `^\s*[-*+]\s+.*X.*$`: `rest` is the text right
after the bullet marker; `k` counts down from the maximal whitespace run.  For
each `k ≥ 1` (greedy: largest first) the engine takes `k` whitespace
characters and then requires the remainder of the line reached (`.` does not
cross `'\n'`) to contain the lowered feature `low`; the match then extends to
that line's end.  Returns the offset of the match end from `rest`. -/
def tryKs (low : List Char) (rest : List Char) : Nat → Option Nat
  | 0 => none
  | k + 1 =>
    let t := rest.drop (k + 1)
    let ln := t.takeWhile (fun c => c ≠ '\n')
    if loccurs low (toLowerL ln) then some (k + 1 + ln.length)
    else tryKs low rest k

/-- Match of `^\s*[-*+]\s+.*X.*$` (MULTILINE, IGNORECASE) starting at a `^`
position whose remaining text is `tcs`; returns the matched length.  `\s*` is
a greedy run of whitespace (possibly crossing newlines), then a marker, then
`\s+` with backtracking, then a newline-free stretch containing `low`, ending
at that line's end (`$`). -/
def matchBullet (low : List Char) (tcs : List Char) : Option Nat :=
  match tcs.drop (tcs.takeWhile pyIsSpace).length with
  | [] => none
  | m :: rest =>
    if isMarker m then
      match tryKs low rest (rest.takeWhile pyIsSpace).length with
      | some e => some ((tcs.takeWhile pyIsSpace).length + 1 + e)
      | none => none
    else none

/-- `re.sub(pattern, '', content, flags=MULTILINE|IGNORECASE)` for the bullet
pattern: scans left to right with fuel; `atLS` tracks whether the current
position is a `^` position (start of string or right after `'\n'`); matched
regions are dropped and scanning resumes at the match end. -/
def subScan (low : List Char) : Nat → List Char → Bool → List Char
  | 0, s, _ => s
  | _ + 1, [], _ => []
  | f + 1, c :: s, atLS =>
    if atLS then
      match matchBullet low (c :: s) with
      | some e =>
        subScan low f (List.drop e (c :: s))
          (decide ((List.take e (c :: s)).getLast? = some '\n'))
      | none => c :: subScan low f s (c = '\n')
    else c :: subScan low f s (c = '\n')

/-- One `re.sub` pass of `_remove_features` for a single feature. -/
def bulletSub (feature content : String) : String :=
  String.mk (subScan (toLowerL feature.data) content.data.length content.data true)

/-- The inner `for feature in features` loop of `_remove_features`. -/
def bulletSubAll (features : List String) (content : String) : String :=
  features.foldl (fun c f => bulletSub f c) content

/-- Modelled from the spec: claim C6's per-line predicate — "a line that is a
bullet point (`-`, `*`, or `+` marker) whose text contains the target string,
case-insensitively", i.e. optional leading whitespace, a marker, at least one
whitespace character, and a remainder containing the target.  Matches the
per-line reading of the pattern `^\s*[-*+]\s+.*X.*$` on a newline-free
line. -/
def claimBullet (feature : String) (line : List Char) : Bool :=
  match line.dropWhile pyIsSpace with
  | [] => false
  | m :: u =>
    isMarker m &&
      (match u with
       | [] => false
       | c :: u2 => pyIsSpace c && loccurs (toLowerL feature.data) (toLowerL u2))

example : headerMatch "# x" = some (1, "x") := by decide
example : headerMatch "# " = none := by decide
example : headerMatch "#  " = some (1, "") := by decide
example : headerMatch "####### x" = none := by decide
example : headerMatch "#x" = none := by decide
example : looseHeading "# " = true := by decide
example : findVer "## v1".data "## v1\n### Changed\n- old\n".data =
    some ("## v1\n".data, "### Changed\n- old\n".data) := by decide
example : findVer "## v1".data "## v1 tail".data = none := by decide
example : findCat "### Added\n".data
    "### Changed\n- old\n- y ### Added\n\n### Added\n- alpha\n".data =
    some [] := by decide
example : bulletSub "Old" "a\n\n- Old\nb" = "a\n\nb" := by decide
example : bulletSub "Old" "- Old\nx" = "\nx" := by decide
example : bulletSub "Old" "- \nhas Old here\nz" = "\nz" := by decide

/-! ## Data model -/

/-- The per-section record stored in `self.sections`.  In the source this is a
Python dict; the entry created at a heading line initially carries only
`line_start`, the remaining fields are filled in when the section is closed
(they default to `0`/`""` here and are never read before being set). -/
structure PySection where
  level : Nat := 0
  content : String := ""
  line_start : Nat := 0
  line_end : Nat := 0
deriving Repr, DecidableEq

/-- One structured documentation entry (`dict` with optional keys `name`,
`description`, `input`, `output`). -/
structure DocEntry where
  name : Option String := none
  description : Option String := none
  input : Option String := none
  output : Option String := none
deriving Repr, DecidableEq

/-- Python truthiness of an optional string (`if entry.get('input'):`). -/
def optTruthy : Option String → Bool
  | none => false
  | some s => s ≠ ""

/-- The analysis record (ChangeSet) consumed by the updater.  All list fields
default to empty, mirroring `analysis.get(...)` on a dict; `significance` and
`summary` are carried by the real record but never read by the updater. -/
structure Analysis where
  new_features : List String := []
  removed_features : List String := []
  modified_features : List String := []
  configuration_updates : List String := []
  documentation_entries : List DocEntry := []
deriving Repr, DecidableEq

/-- The mutable state of a `READMEUpdater`: `self.content` and
`self.sections` (ordered dict as an association list with distinct keys). -/
structure UpdaterState where
  content : String := ""
  sections : List (String × PySection) := []
deriving Repr, DecidableEq

/-- Python 3.7+ dict assignment `d[k] = v`: overwrites in place if the key
exists, otherwise appends. -/
def dictSet : List (String × PySection) → String → PySection → List (String × PySection)
  | [], k, v => [(k, v)]
  | (k', v') :: rest, k, v =>
    if k' = k then (k, v) :: rest else (k', v') :: dictSet rest k v

/-- Python dict lookup `d.get(k)` / `d[k]`. -/
def dictFind : List (String × PySection) → String → Option PySection
  | [], _ => none
  | (k', v') :: rest, k => if k' = k then some v' else dictFind rest k

/-! ## `_parse_sections` -/

/-- Closing a section at `_parse_sections` lines 55–61 / 87–93: writes level,
joined content, the previously recorded `line_start` and the closing
`line_end` into the dict. -/
def saveSec (secs : List (String × PySection)) (cur : String) (lvl : Nat)
    (cc : List String) (endIdx : Nat) : List (String × PySection) :=
  let start := match dictFind secs cur with
    | some s => s.line_start
    | none => 0
  dictSet secs cur
    { level := lvl, content := sJoinNl cc, line_start := start, line_end := endIdx }

/-- The `for i, line in enumerate(lines)` loop of `_parse_sections`, followed
by the final save.  State: the dict built so far, the current section (title
and level) and the accumulated body lines. -/
def parseLoop : List String → Nat → List (String × PySection) →
    Option (String × Nat) → List String → List (String × PySection)
  | [], i, secs, cur, cc =>
    match cur with
    | some (c, lvl) => saveSec secs c lvl cc (i - 1)
    | none => secs
  | line :: rest, i, secs, cur, cc =>
    match headerMatch line with
    | some (lvl, title) =>
      let secs1 := match cur with
        | some (c, clvl) => saveSec secs c clvl cc (i - 1)
        | none => secs
      parseLoop rest (i + 1) (dictSet secs1 title { line_start := i })
        (some (title, lvl)) []
    | none =>
      match cur with
      | some _ => parseLoop rest (i + 1) secs cur (cc ++ [line])
      | none =>
        match dictFind secs "preamble" with
        | none =>
          parseLoop rest (i + 1)
            (dictSet secs "preamble"
              { level := 0, content := line, line_start := 0, line_end := i })
            cur cc
        | some p =>
          parseLoop rest (i + 1)
            (dictSet secs "preamble"
              { p with content := p.content ++ "\n" ++ line, line_end := i })
            cur cc

/-- `READMEUpdater._parse_sections`. -/
def parseSections (content : String) : List (String × PySection) :=
  parseLoop (sSplitNl content) 0 [] none []

/-- `load_readme` on an existing file with the given text: sets `content` and
parses the sections. -/
def loadState (content : String) : UpdaterState :=
  { content := content, sections := parseSections content }

/-- The (trimmed) titles of the heading lines in a line list, in order. -/
def headingTitles (ls : List String) : List String :=
  ls.filterMap (fun l => (headerMatch l).map (fun p => p.2))

/-! ## `_find_section`, `_rebuild_content`, `_insert_after_preamble` -/

/-- Inner loop of `_find_section` for one candidate title: first section key
containing the candidate case-insensitively. -/
def findFirstKey (secs : List (String × PySection)) (title : String) : Option String :=
  (secs.find? (fun kv => sContains (sLower kv.1) (sLower title))).map (fun kv => kv.1)

/-- `READMEUpdater._find_section`. -/
def findSection (secs : List (String × PySection)) : List String → Option String
  | [] => none
  | t :: ts =>
    match findFirstKey secs t with
    | some k => some k
    | none => findSection secs ts

/-- `'#' * level`. -/
def hashes (n : Nat) : String :=
  String.mk (List.replicate n '#')

/-- `READMEUpdater._rebuild_content`: preamble content first (when present),
then for each non-preamble section its reconstructed heading line and, when
non-empty, its content, all joined by `'\n'`. -/
def rebuildContent (secs : List (String × PySection)) : String :=
  let pre := match dictFind secs "preamble" with
    | some p => [p.content]
    | none => []
  let rest := (secs.filter (fun kv => kv.1 ≠ "preamble")).flatMap
    (fun kv =>
      [hashes kv.2.level ++ " " ++ kv.1] ++
        (if kv.2.content ≠ "" then [kv.2.content] else []))
  sJoinNl (pre ++ rest)

/-- `lines.insert(i, x)`. -/
def listInsertAt (ls : List String) (i : Nat) (x : String) : List String :=
  ls.take i ++ [x] ++ ls.drop i

/-- Scan of `_insert_after_preamble` for the first loose heading line,
returning its index and the line. -/
def findLooseIdx : List String → Nat → Option (Nat × String)
  | [], _ => none
  | l :: ls, i =>
    if looseHeading l then some (i, l) else findLooseIdx ls (i + 1)

/-- `READMEUpdater._insert_after_preamble`. -/
def insertAfterPre (content newContent : String) : String :=
  let lines := sSplitNl content
  match lines with
  | [] => content ++ "\n" ++ newContent
  | l0 :: _ =>
    if sContains l0 "Release Notes" then sJoinNl (listInsertAt lines 1 newContent)
    else
      match findLooseIdx lines 0 with
      | some (i, line) =>
        if sContains line "Release Notes" then
          sJoinNl (listInsertAt lines (i + 1) newContent)
        else sJoinNl (listInsertAt lines i newContent)
      | none => content ++ "\n" ++ newContent

example : parseSections "# A\nx\n# A\ny" =
    [("A", { level := 1, content := "y", line_start := 2, line_end := 3 })] := by decide
example : parseSections "pre\n## Features\n- A\n" =
    [("preamble", { level := 0, content := "pre", line_start := 0, line_end := 0 }),
     ("Features", { level := 2, content := "- A\n", line_start := 1, line_end := 3 })] := by
  decide
example : findSection (parseSections "## Key Features\n- A\n") ["Features", "Key Features"] =
    some "Key Features" := by decide
example : rebuildContent (parseSections "pre\n## Features\n- A\n") =
    "pre\n## Features\n- A\n" := by decide

/-! ## Feature, configuration and documentation-entry merging -/

/-- Lines 255–257 of `_add_features` (also 323–325 of
`_update_configuration`): `new_content = section_content.rstrip()`, with a
`'\n'` appended when the result does not already end with one. -/
def normBase (sectionContent : String) : String :=
  let r := sRstrip sectionContent
  if !(sEndsWith r "\n") then r ++ "\n" else r

/-- The duplicate-filtering append loop shared verbatim by `_add_features`
(lines 259–262) and `_update_configuration` (lines 327–329): each item is
appended as a bullet unless the *original* section content already contains
it case-insensitively. -/
def appendNonDup (sectionContent : String) (items : List String) : String :=
  items.foldl
    (fun acc f =>
      if !(sContains (sLower sectionContent) (sLower f)) then acc ++ "- " ++ f ++ "\n"
      else acc)
    (normBase sectionContent)

/-- Synonym list used for the Features section. -/
def featureTitles : List String :=
  ["Features", "Key Features", "Functionality", "What it does"]

/-- `READMEUpdater._add_features`. -/
def addFeatures (st : UpdaterState) (features : List String) : UpdaterState × Bool :=
  if features = [] then (st, false)
  else
    match findSection st.sections featureTitles with
    | some fs =>
      let sec := (dictFind st.sections fs).getD {}
      let secs1 := dictSet st.sections fs { sec with content := appendNonDup sec.content features }
      ({ content := rebuildContent secs1, sections := secs1 }, true)
    | none =>
      let newSection := "\n## Features\n\n" ++ sFlat (features.map (fun f => "- " ++ f ++ "\n"))
      let secs1 := parseSections (insertAfterPre st.content newSection)
      ({ content := rebuildContent secs1, sections := secs1 }, true)

/-- `READMEUpdater._remove_features`: the `for section_name, section_data in
self.sections.items()` loop, rebuilding the content when anything changed. -/
def removeFeatures (st : UpdaterState) (features : List String) : UpdaterState × Bool :=
  if features = [] then (st, false)
  else
    let (secs1, modified) := st.sections.foldl
      (fun acc kv =>
        let c2 := bulletSubAll features kv.2.content
        if c2 ≠ kv.2.content then (acc.1 ++ [(kv.1, { kv.2 with content := c2 })], true)
        else (acc.1 ++ [kv], acc.2))
      ([], false)
    if modified then ({ content := rebuildContent secs1, sections := secs1 }, true)
    else (st, false)

/-- `READMEUpdater._update_features`: `return self._add_features(features)`. -/
def updateFeatures (st : UpdaterState) (features : List String) : UpdaterState × Bool :=
  addFeatures st features

/-- `READMEUpdater._update_configuration`. -/
def updateConfiguration (st : UpdaterState) (configUpdates : List String) :
    UpdaterState × Bool :=
  if configUpdates = [] then (st, false)
  else
    match findSection st.sections ["Configuration", "Config", "Environment", "Setup"] with
    | some cs =>
      let sec := (dictFind st.sections cs).getD {}
      let newContent := appendNonDup sec.content configUpdates
      if newContent ≠ sec.content then
        let secs1 := dictSet st.sections cs { sec with content := newContent }
        ({ content := rebuildContent secs1, sections := secs1 }, true)
      else (st, false)
    | none =>
      let newSection :=
        "\n## Configuration\n\n" ++ sFlat (configUpdates.map (fun c => "- " ++ c ++ "\n"))
      let secs1 := parseSections (insertAfterPre st.content newSection)
      ({ content := rebuildContent secs1, sections := secs1 }, true)

/-- The per-entry formatting of `_update_documentation_entries` (lines
424–437): a third-level sub-heading, the description, and optional
Input/Output bullets. -/
def fmtEntry (e : DocEntry) : String :=
  "\n### " ++ e.name.getD "Feature" ++ "\n" ++ e.description.getD "" ++ "\n\n" ++
    (if optTruthy e.input then "- **Input**: " ++ e.input.getD "" ++ "\n" else "") ++
    (if optTruthy e.output then "- **Output**: " ++ e.output.getD "" ++ "\n" else "")

/-- `READMEUpdater._update_documentation_entries`.  Note that the duplicate
check (line 448) tests `"### {name}" not in current_content` — a plain
substring test against the original content, with `entry.get('name', '')`. -/
def updateDocEntries (st : UpdaterState) (entries : List DocEntry) : UpdaterState × Bool :=
  if entries = [] then (st, false)
  else
    match findSection st.sections featureTitles with
    | some fs =>
      let sec := (dictFind st.sections fs).getD {}
      let cur := sec.content
      let (newContent, addedAny) := entries.foldl
        (fun acc e =>
          if !(sContains cur ("### " ++ e.name.getD "")) then (acc.1 ++ fmtEntry e, true)
          else acc)
        (cur, false)
      if addedAny then
        let secs1 := dictSet st.sections fs { sec with content := newContent }
        ({ content := rebuildContent secs1, sections := secs1 }, true)
      else (st, false)
    | none =>
      let secs1 := parseSections
        (insertAfterPre st.content ("\n## Features\n" ++ sFlat (entries.map fmtEntry)))
      ({ content := rebuildContent secs1, sections := secs1 }, true)

/-- `READMEUpdater.update_from_analysis`: documentation entries take priority
over plain new-feature bullets (`if`/`elif`), then removals, then modified
features, then configuration updates; `modified |= ...` accumulates. -/
def updateFromAnalysis (st : UpdaterState) (a : Analysis) : UpdaterState × Bool :=
  let (st1, m1) :=
    if a.documentation_entries ≠ [] then updateDocEntries st a.documentation_entries
    else if a.new_features ≠ [] then addFeatures st a.new_features
    else (st, false)
  let (st2, m2) :=
    if a.removed_features ≠ [] then removeFeatures st1 a.removed_features else (st1, false)
  let (st3, m3) :=
    if a.modified_features ≠ [] then updateFeatures st2 a.modified_features else (st2, false)
  let (st4, m4) :=
    if a.configuration_updates ≠ [] then updateConfiguration st3 a.configuration_updates
    else (st3, false)
  (st4, m1 || m2 || m3 || m4)

/-! ## `update_changelog` -/

/-- `get_bullets` helper (line 128–129): one `"- {item}\n"` per item. -/
def getBullets (items : List String) : List Char :=
  (items.map (fun i => ("- " ++ i ++ "\n").data)).flatten

/-- Lines 131–135: the `changes` dict in insertion order Added, Removed,
Changed, Configuration, omitting empty categories. -/
def buildChanges (a : Analysis) : List (String × List Char) :=
  (if a.new_features ≠ [] then [("Added", getBullets a.new_features)] else []) ++
  (if a.removed_features ≠ [] then [("Removed", getBullets a.removed_features)] else []) ++
  (if a.modified_features ≠ [] then [("Changed", getBullets a.modified_features)] else []) ++
  (if a.configuration_updates ≠ [] then
    [("Configuration", getBullets a.configuration_updates)] else [])

/-- Lines 164–167: the duplicate filter on bullets of an existing category —
a bullet line survives when its *stripped* text does not occur as a substring
of the existing bullets. -/
def newUnique (bullets existing : List Char) : List Char :=
  (splitKeepL bullets).foldl
    (fun acc line => if !(loccurs (stripL line) existing) then acc ++ line else acc) []

/-- Lines 153–175: processing of one category against the evolving version
body `nb`. -/
def mergeCat (nb : List Char) (cat : String) (bullets : List Char) : List Char :=
  let catHeader := ("### " ++ cat).data
  if loccurs catHeader nb then
    match findCat (catHeader ++ ['\n']) nb with
    | some g2 =>
      let nu := newUnique bullets g2
      if nu ≠ [] then
        lreplace nb (catHeader ++ '\n' :: g2)
          (catHeader ++ '\n' :: (rstripL g2 ++ '\n' :: nu))
      else nb
    | none => nb
  else rstripL nb ++ '\n' :: '\n' :: catHeader ++ '\n' :: bullets

/-- Lines 183–185: the synthesized new version entry. -/
def newEntryText (today : String) (vh : List Char) (changes : List (String × List Char)) :
    List Char :=
  '\n' :: vh ++ (" (" ++ today ++ ")\n\n").data ++
    (changes.map (fun cb => ("### " ++ cb.1 ++ "\n").data ++ cb.2 ++ ['\n'])).flatten

/-- Lines 191–197: insert the entry after the first line containing
`"# Release Notes"`; `none` when no line matches (`inserted` stays false). -/
def insertRN : List (List Char) → List Char → Option (List (List Char))
  | [], _ => none
  | l :: ls, entry =>
    if loccurs "# Release Notes".data l then some (l :: entry :: ls)
    else
      match insertRN ls entry with
      | some ls2 => some (l :: ls2)
      | none => none

/-- `READMEUpdater.update_changelog`.  `today` stands for
`datetime.date.today().isoformat()`. -/
def updateChangelog (today : String) (st : UpdaterState) (a : Analysis)
    (version : String) : UpdaterState × Bool :=
  if a.new_features = [] ∧ a.removed_features = [] ∧ a.modified_features = [] ∧
      a.configuration_updates = [] then (st, false)
  else
    let changes := buildChanges a
    if changes = [] then (st, false)
    else
      let vh := ("## " ++ version).data
      let content := st.content.data
      match findVer vh content with
      | some (hdr, body) =>
        let newBody := changes.foldl (fun nb cb => mergeCat nb cb.1 cb.2) body
        if newBody ≠ body then
          ({ st with content := String.mk (lreplace content (hdr ++ body) (hdr ++ newBody)) },
            true)
        else (st, false)
      | none =>
        let entry := newEntryText today vh changes
        if loccurs "Release Notes".data content then
          match insertRN (splitKeepL content) entry with
          | some ls => ({ st with content := String.mk ls.flatten }, true)
          | none => ({ st with content := String.mk (content ++ entry) }, true)
        else
          ({ st with content := String.mk ("# Release Notes\n".data ++ entry ++ content) },
            true)

/-- Modelled from the spec: the insertion rule that §4.4 and claim C1 ascribe
to `update_changelog` when no existing version block is found — "if the
document contains a top-level title line containing `Release Notes`, insert
the new block immediately after that line; otherwise, if any heading exists,
insert before the first heading; otherwise, synthesize a `# Release Notes`
title and prepend the new block beneath it".  Used only to compare the
claimed behaviour against the code. -/
def specInsertNewBlock (doc entry : String) : String :=
  let lines := splitKeepL doc.data
  let isTopTitleRN : List Char → Bool := fun l =>
    (match headerMatch (String.mk (l.takeWhile (fun c => c ≠ '\n'))) with
     | some (1, _) => true
     | _ => false) && loccurs "Release Notes".data l
  match lines.findIdx? isTopTitleRN with
  | some i => String.mk ((lines.take (i + 1) ++ [entry.data] ++ lines.drop (i + 1)).flatten)
  | none =>
    match lines.findIdx?
        (fun l => (headerMatch (String.mk (l.takeWhile (fun c => c ≠ '\n')))).isSome) with
    | some i => String.mk ((lines.take i ++ [entry.data] ++ lines.drop i).flatten)
    | none => "# Release Notes\n" ++ entry ++ doc

/-! ## Supporting lemmas -/

/-- `lpre` characterization: a list starts with `n` iff it is `n ++ q`. -/
theorem lpre_iff (n : List Char) : ∀ h : List Char, lpre n h = true ↔ ∃ q, h = n ++ q := by
  induction n with
  | nil => intro h; simp [lpre]
  | cons a as ih =>
    intro h
    cases h with
    | nil =>
      simp only [lpre, List.cons_append]
      constructor
      · intro hfalse; cases hfalse
      · rintro ⟨q, hq⟩; cases hq
    | cons b bs =>
      simp only [lpre, Bool.and_eq_true, decide_eq_true_eq, ih, List.cons_append]
      constructor
      · rintro ⟨hab, q, hq⟩; exact ⟨q, by rw [hab, hq]⟩
      · rintro ⟨q, hq⟩
        injection hq with h1 h2
        exact ⟨h1.symm, q, h2⟩

/-- `loccurs` characterization: `n` occurs in `h` iff `h = p ++ n ++ q`. -/
theorem loccurs_iff (n : List Char) :
    ∀ h : List Char, loccurs n h = true ↔ ∃ p q, h = p ++ n ++ q := by
  intro h
  induction h with
  | nil =>
    simp only [loccurs, lpre_iff]
    constructor
    · rintro ⟨q, hq⟩; exact ⟨[], q, by simpa using hq⟩
    · rintro ⟨p, q, hpq⟩
      rw [List.append_assoc] at hpq
      rcases List.append_eq_nil.mp hpq.symm with ⟨hp, hnq⟩
      rcases List.append_eq_nil.mp hnq with ⟨hn, hq⟩
      exact ⟨[], by simp [hn]⟩
  | cons c s ih =>
    simp only [loccurs, Bool.or_eq_true, lpre_iff, ih]
    constructor
    · rintro (⟨q, hq⟩ | ⟨p, q, hpq⟩)
      · exact ⟨[], q, by simpa using hq⟩
      · exact ⟨c :: p, q, by simp [hpq]⟩
    · rintro ⟨p, q, hpq⟩
      cases p with
      | nil => exact Or.inl ⟨q, by simpa using hpq⟩
      | cons x xs =>
        right
        injection hpq with h1 h2
        exact ⟨xs, q, h2⟩

/-- Substring occurrence is transitive. -/
theorem loccurs_trans {a b c : List Char} (h1 : loccurs a b = true)
    (h2 : loccurs b c = true) : loccurs a c = true := by
  rcases (loccurs_iff a b).mp h1 with ⟨p, q, hb⟩
  rcases (loccurs_iff b c).mp h2 with ⟨r, s, hc⟩
  exact (loccurs_iff a c).mpr ⟨r ++ p, q ++ s, by simp [hc, hb, List.append_assoc]⟩

/-- A list decomposes as leading whitespace, its stripped core, and trailing
whitespace. -/
theorem exists_strip_decomp (s : List Char) : ∃ p q, s = p ++ stripL s ++ q := by
  refine ⟨s.takeWhile pyIsSpace, ((dropWs s).reverse.takeWhile pyIsSpace).reverse, ?_⟩
  have h1 : s = s.takeWhile pyIsSpace ++ dropWs s :=
    (List.takeWhile_append_dropWhile pyIsSpace s).symm
  have h2 : dropWs s = stripL s ++ ((dropWs s).reverse.takeWhile pyIsSpace).reverse := by
    have h3 : (dropWs s).reverse.takeWhile pyIsSpace ++ (dropWs s).reverse.dropWhile pyIsSpace
        = (dropWs s).reverse := List.takeWhile_append_dropWhile pyIsSpace (dropWs s).reverse
    have h4 := congrArg List.reverse h3
    simp only [List.reverse_append, List.reverse_reverse] at h4
    simpa [stripL, rstripL, dropWs] using h4.symm
  rw [List.append_assoc, ← h2, ← h1]

/-- The stripped core of a list occurs in it. -/
theorem loccurs_stripL (s : List Char) : loccurs (stripL s) s = true := by
  rcases exists_strip_decomp s with ⟨p, q, hs⟩
  exact (loccurs_iff (stripL s) s).mpr ⟨p, q, hs⟩

/-- `splitNlL` never returns an empty list. -/
theorem splitNl_ne_nil (s : List Char) : splitNlL s ≠ [] := by
  cases s with
  | nil => simp [splitNlL]
  | cons c s =>
    unfold splitNlL
    by_cases hc : c = '\n'
    · simp [hc]
    · simp only [hc, if_false]
      cases h : splitNlL s <;> simp

/-- Joining the split lines reconstructs the original list. -/
theorem joinNl_splitNl (s : List Char) : joinNlL (splitNlL s) = s := by
  induction s with
  | nil => rfl
  | cons c s ih =>
    unfold splitNlL
    by_cases hc : c = '\n'
    · subst hc
      simp only [if_pos rfl]
      cases h : splitNlL s with
      | nil => exact absurd h (splitNl_ne_nil s)
      | cons l ls =>
        rw [h] at ih
        show joinNlL ([] :: l :: ls) = '\n' :: s
        simp [joinNlL, ih]
    · simp only [hc, if_false]
      cases h : splitNlL s with
      | nil => exact absurd h (splitNl_ne_nil s)
      | cons l ls =>
        rw [h] at ih
        cases ls with
        | nil => simpa [joinNlL] using congrArg (c :: ·) ih
        | cons l2 ls2 =>
          show joinNlL ((c :: l) :: l2 :: ls2) = c :: s
          simp only [joinNlL] at ih ⊢
          simp [← ih]

/-- Every member of a line list occurs in its `'\n'`-join. -/
theorem mem_join_infix {m : List Char} :
    ∀ ls : List (List Char), m ∈ ls → ∃ p q, joinNlL ls = p ++ m ++ q := by
  intro ls
  induction ls with
  | nil => intro h; cases h
  | cons l ls ih =>
    intro h
    rcases List.mem_cons.mp h with h1 | h2
    · subst h1
      cases ls with
      | nil => exact ⟨[], [], by simp [joinNlL]⟩
      | cons l2 ls2 => exact ⟨[], '\n' :: joinNlL (l2 :: ls2), by simp [joinNlL]⟩
    · rcases ih h2 with ⟨p, q, hj⟩
      cases ls with
      | nil => cases h2
      | cons l2 ls2 =>
        exact ⟨l ++ '\n' :: p, q, by simp [joinNlL, hj, List.append_assoc]⟩

/-- Every line produced by `splitNlL` occurs in the original list. -/
theorem loccurs_of_mem_splitNl {m s : List Char} (h : m ∈ splitNlL s) :
    loccurs m s = true := by
  rcases mem_join_infix (splitNlL s) h with ⟨p, q, hj⟩
  rw [joinNl_splitNl] at hj
  exact (loccurs_iff m s).mpr ⟨p, q, hj⟩

/-- The `_add_features` / `_update_configuration` append loop in declarative
form: the appended bullets are exactly the items whose lowered text does not
occur in the lowered original section content. -/
theorem appendNonDup_eq_filter (content : String) (items : List String) :
    appendNonDup content items =
      normBase content ++
        sFlat ((items.filter
            (fun f => !(sContains (sLower content) (sLower f)))).map
          (fun f => "- " ++ f ++ "\n")) := by
  have h : ∀ (its : List String) (acc : String),
      its.foldl
          (fun acc f =>
            if !(sContains (sLower content) (sLower f)) then acc ++ "- " ++ f ++ "\n"
            else acc) acc =
        acc ++
          sFlat ((its.filter
              (fun f => !(sContains (sLower content) (sLower f)))).map
            (fun f => "- " ++ f ++ "\n")) := by
    intro its
    induction its with
    | nil => intro acc; simp [sFlat, String.append_empty]
    | cons f fs ih =>
      intro acc
      by_cases hc : (!(sContains (sLower content) (sLower f))) = true
      · simp only [List.foldl_cons, List.filter_cons, hc, if_pos, List.map_cons]
        rw [ih]
        apply String.ext
        simp [sFlat, String.append_assoc]
      · simp only [Bool.not_eq_true] at hc
        simp only [List.foldl_cons, List.filter_cons, hc, List.map_cons]
        rw [if_neg (by simp [hc]), ih]
        simp [hc]
  exact h items (normBase content)

/-- The changelog bullet filter (`update_changelog` lines 164–167) in
declarative form: the surviving bullet lines are exactly those whose trimmed
text does not occur (case-sensitively) in the existing category bullets. -/
theorem newUnique_eq_filter (bullets existing : List Char) :
    newUnique bullets existing =
      ((splitKeepL bullets).filter (fun l => !(loccurs (stripL l) existing))).flatten := by
  have h : ∀ (ls : List (List Char)) (acc : List Char),
      ls.foldl
          (fun acc line => if !(loccurs (stripL line) existing) then acc ++ line else acc)
          acc =
        acc ++ (ls.filter (fun l => !(loccurs (stripL l) existing))).flatten := by
    intro ls
    induction ls with
    | nil => intro acc; simp
    | cons l ls ih =>
      intro acc
      by_cases hc : (!(loccurs (stripL l) existing)) = true
      · simp only [List.foldl_cons, List.filter_cons, hc, if_pos, List.flatten_cons]
        rw [ih, List.append_assoc]
      · simp only [Bool.not_eq_true] at hc
        simp only [List.foldl_cons, List.filter_cons, hc]
        rw [if_neg (by simp [hc]), ih]
        simp [hc]
  exact h (splitKeepL bullets) []

/-- Flattening the keep-ends split reconstructs the original list. -/
theorem splitKeep_flatten (s : List Char) : (splitKeepL s).flatten = s := by
  induction s with
  | nil => rfl
  | cons c s ih =>
    unfold splitKeepL
    by_cases hc : c = '\n'
    · subst hc
      simp only [if_pos rfl, List.flatten_cons]
      simp [ih]
    · simp only [hc, if_false]
      cases h : splitKeepL s with
      | nil =>
        rw [h] at ih
        simp only [List.flatten_nil] at ih
        simp [← ih]
      | cons l ls =>
        rw [h] at ih
        simp only [List.flatten_cons] at ih ⊢
        simp [← ih]

/-- The insertion loop of `update_changelog` (lines 191–197) when the head
line already contains `"# Release Notes"`. -/
theorem insertRN_head (l0 : List Char) (ls : List (List Char)) (entry : List Char)
    (h : loccurs "# Release Notes".data l0 = true) :
    insertRN (l0 :: ls) entry = some (l0 :: entry :: ls) := by
  simp [insertRN, h]

/-- The insertion loop of `update_changelog` finds nothing when no line
contains `"# Release Notes"`. -/
theorem insertRN_none (entry : List Char) :
    ∀ ls : List (List Char), (∀ l ∈ ls, loccurs "# Release Notes".data l = false) →
      insertRN ls entry = none := by
  intro ls
  induction ls with
  | nil => intro _; rfl
  | cons l ls ih =>
    intro h
    have h0 := h l (List.mem_cons_self l ls)
    have hrest := ih (fun x hx => h x (List.mem_cons_of_mem l hx))
    simp [insertRN, h0, hrest]

/-- With a non-empty `new_features` list the `changes` dict is non-empty. -/
theorem buildChanges_ne_nil (a : Analysis) (h : a.new_features ≠ []) :
    buildChanges a ≠ [] := by
  simp only [buildChanges, if_pos h]
  exact List.cons_ne_nil _ _

/-- A list all of whose elements satisfy `p` is its own `takeWhile`. -/
theorem takeWhile_all {p : Char → Bool} :
    ∀ l : List Char, (∀ x ∈ l, p x = true) → l.takeWhile p = l := by
  intro l
  induction l with
  | nil => intro _; rfl
  | cons c s ih =>
    intro h
    simp only [List.takeWhile_cons, h c (List.mem_cons_self c s), if_pos]
    rw [ih (fun x hx => h x (List.mem_cons_of_mem c hx))]

/-- On newline-free text, every successful `\s+` backtracking step of the
bullet pattern ends the match at the end of the text: `tryKs` returns the
full length whenever some admissible `k` succeeds. -/
theorem tryKs_full (low rest : List Char) (hnl : ∀ x ∈ rest, x ≠ '\n') :
    ∀ m : Nat, m ≤ rest.length →
      (∃ k, 1 ≤ k ∧ k ≤ m ∧ loccurs low (toLowerL (rest.drop k)) = true) →
      tryKs low rest m = some rest.length := by
  intro m
  induction m with
  | zero => rintro _ ⟨k, hk1, hk0, _⟩; omega
  | succ n ih =>
    rintro hm ⟨k, hk1, hkm, hkocc⟩
    have hln : (rest.drop (n + 1)).takeWhile (fun c => c ≠ '\n') = rest.drop (n + 1) := by
      apply takeWhile_all
      intro x hx
      simp [hnl x (List.mem_of_mem_drop hx)]
    unfold tryKs
    simp only [hln]
    by_cases hocc : loccurs low (toLowerL (rest.drop (n + 1))) = true
    · rw [if_pos hocc, List.length_drop]
      congr 1
      omega
    · rw [if_neg hocc]
      apply ih (by omega)
      refine ⟨k, hk1, ?_, hkocc⟩
      rcases Nat.lt_or_ge k (n + 1) with hlt | hge
      · omega
      · exfalso
        have : k = n + 1 := by omega
        rw [this] at hkocc
        exact hocc hkocc

/-- Dropping the `takeWhile` run is the same as `dropWhile`. -/
theorem drop_takeWhile_length (p : Char → Bool) :
    ∀ l : List Char, l.drop (l.takeWhile p).length = l.dropWhile p := by
  intro l
  induction l with
  | nil => rfl
  | cons c s ih =>
    by_cases h : p c = true
    · simp only [List.takeWhile_cons, List.dropWhile_cons, h, if_pos, List.length_cons,
        List.drop_succ_cons]
      exact ih
    · simp only [List.takeWhile_cons, List.dropWhile_cons, h]
      simp [h]

/-- On a newline-free line satisfying the claim's bullet predicate, the
`^\s*[-*+]\s+.*X.*$` matcher matches the entire line. -/
theorem matchBullet_full (feature : String) (line : List Char)
    (hnl : ∀ x ∈ line, x ≠ '\n') (hcb : claimBullet feature line = true) :
    matchBullet (toLowerL feature.data) line = some line.length := by
  unfold claimBullet at hcb
  unfold matchBullet
  rw [drop_takeWhile_length]
  cases ht : line.dropWhile pyIsSpace with
  | nil => rw [ht] at hcb; cases hcb
  | cons m u =>
    rw [ht] at hcb
    simp only [Bool.and_eq_true] at hcb
    obtain ⟨hmk, hu⟩ := hcb
    cases hu' : u with
    | nil => rw [hu'] at hu; cases hu
    | cons c u2 =>
      rw [hu'] at hu
      simp only [Bool.and_eq_true] at hu
      obtain ⟨hcws, hocc⟩ := hu
      subst hu'
      have hmemu : ∀ x ∈ (m :: c :: u2 : List Char), x ∈ line := by
        intro x hx
        exact (List.dropWhile_sublist pyIsSpace (l := line)).mem (ht ▸ hx)
      have hnlu : ∀ x ∈ (c :: u2 : List Char), x ≠ '\n' := fun x hx =>
        hnl x (hmemu x (List.mem_cons_of_mem m hx))
      have hrun1 : 1 ≤ ((c :: u2).takeWhile pyIsSpace).length := by
        simp [List.takeWhile_cons, hcws]
      have hrunle : ((c :: u2).takeWhile pyIsSpace).length ≤ (c :: u2 : List Char).length :=
        (List.takeWhile_sublist pyIsSpace).length_le
      show (if isMarker m = true then
          match tryKs (toLowerL feature.data) (c :: u2)
              (List.takeWhile pyIsSpace (c :: u2)).length with
          | some e => some ((List.takeWhile pyIsSpace line).length + 1 + e)
          | none => none
        else none) = some line.length
      rw [if_pos hmk]
      rw [tryKs_full (toLowerL feature.data) (c :: u2) hnlu _ hrunle
        ⟨1, Nat.le_refl 1, hrun1, by simpa using hocc⟩]
      have hlen : line.length = (line.takeWhile pyIsSpace).length + (1 + (u2.length + 1)) := by
        conv_lhs => rw [← List.takeWhile_append_dropWhile pyIsSpace line]
        rw [List.length_append, ht]
        simp
        omega
      rw [hlen]
      simp
      omega

/-- On a newline-free line satisfying the claim's bullet predicate, the
`re.sub` scanner of `_remove_features` deletes the entire line. -/
theorem bulletSub_deletes (feature : String) (line : List Char)
    (hnl : ∀ x ∈ line, x ≠ '\n') (hcb : claimBullet feature line = true) :
    bulletSub feature (String.mk line) = "" := by
  unfold bulletSub
  cases hl : line with
  | nil => rw [hl] at hcb; cases hcb
  | cons c s =>
    have hm := matchBullet_full feature line hnl hcb
    rw [hl] at hm
    show String.mk (subScan (toLowerL feature.data) (c :: s).length (c :: s) true) = ""
    simp only [List.length_cons]
    unfold subScan
    simp only [if_pos rfl, hm]
    rw [show List.drop (c :: s).length (c :: s) = [] from List.drop_length _]
    cases s.length <;> rfl

/-- The `_remove_features` section loop in declarative form: its first
component maps every section to the same section with all features
swept from its content. -/
theorem removeFold_fst (fs : List String) :
    ∀ (l : List (String × PySection)) (acc : List (String × PySection) × Bool),
      (l.foldl
        (fun acc kv =>
          let c2 := bulletSubAll fs kv.2.content
          if c2 ≠ kv.2.content then (acc.1 ++ [(kv.1, { kv.2 with content := c2 })], true)
          else (acc.1 ++ [kv], acc.2)) acc).1 =
      acc.1 ++ l.map (fun kv => (kv.1, { kv.2 with content := bulletSubAll fs kv.2.content })) := by
  intro l
  induction l with
  | nil => intro acc; simp
  | cons kv l ih =>
    intro acc
    simp only [List.foldl_cons, List.map_cons]
    by_cases h : bulletSubAll fs kv.2.content ≠ kv.2.content
    · rw [if_pos h, ih]
      simp
    · have heq : bulletSubAll fs kv.2.content = kv.2.content := not_not.mp h
      have hkv : (kv.1, { kv.2 with content := bulletSubAll fs kv.2.content }) = kv := by
        obtain ⟨k, lvl, cnt, s0, e0⟩ := kv
        simp [heq]
      rw [if_neg h, ih, hkv]
      simp

/-- Once the modified flag of the `_remove_features` loop is set, it stays
set. -/
theorem removeFold_snd_true (fs : List String) :
    ∀ (l : List (String × PySection)) (acc : List (String × PySection)),
      (l.foldl
        (fun acc kv =>
          let c2 := bulletSubAll fs kv.2.content
          if c2 ≠ kv.2.content then (acc.1 ++ [(kv.1, { kv.2 with content := c2 })], true)
          else (acc.1 ++ [kv], acc.2)) (acc, true)).2 = true := by
  intro l
  induction l with
  | nil => intro acc; rfl
  | cons kv l ih =>
    intro acc
    simp only [List.foldl_cons]
    by_cases h : bulletSubAll fs kv.2.content ≠ kv.2.content
    · rw [if_pos h]
      exact ih _
    · rw [if_neg h]
      exact ih _

/-- When the `_remove_features` loop reports no modification, the sweep
changed no section content. -/
theorem removeFold_snd_false (fs : List String) :
    ∀ (l : List (String × PySection)) (acc : List (String × PySection)),
      (l.foldl
        (fun acc kv =>
          let c2 := bulletSubAll fs kv.2.content
          if c2 ≠ kv.2.content then (acc.1 ++ [(kv.1, { kv.2 with content := c2 })], true)
          else (acc.1 ++ [kv], acc.2)) (acc, false)).2 = false →
      ∀ kv ∈ l, bulletSubAll fs kv.2.content = kv.2.content := by
  intro l
  induction l with
  | nil => intro _ _ kv hkv; cases hkv
  | cons kv l ih =>
    intro acc h kv' hkv'
    simp only [List.foldl_cons] at h
    by_cases hc : bulletSubAll fs kv.2.content ≠ kv.2.content
    · rw [if_pos hc, removeFold_snd_true fs l _] at h
      cases h
    · rw [if_neg hc] at h
      rcases List.mem_cons.mp hkv' with h1 | h2
      · subst h1; exact not_not.mp hc
      · exact ih _ h kv' h2

/-! ### Dictionary and line-splitting lemmas for `_parse_sections` -/

/-- The assigned entry is a member of the updated dict. -/
theorem dictSet_mem_self (k : String) (v : PySection) :
    ∀ d : List (String × PySection), (k, v) ∈ dictSet d k v := by
  intro d
  induction d with
  | nil => simp [dictSet]
  | cons kv rest ih =>
    unfold dictSet
    by_cases h : kv.1 = k
    · rw [show kv = (kv.1, kv.2) from rfl]
      simp [h]
    · rw [show kv = (kv.1, kv.2) from rfl]
      simp only [h, if_neg, not_false_iff]
      exact List.mem_cons_of_mem _ ih

/-- Entries with a different key survive a dict assignment. -/
theorem dictSet_mem_of_ne {kv : String × PySection} (k : String) (v : PySection) :
    ∀ d : List (String × PySection), kv ∈ d → kv.1 ≠ k → kv ∈ dictSet d k v := by
  intro d
  induction d with
  | nil => intro h; cases h
  | cons kv' rest ih =>
    intro hmem hne
    obtain ⟨k', v'⟩ := kv'
    unfold dictSet
    rcases List.mem_cons.mp hmem with h1 | h2
    · subst h1
      by_cases h : k' = k
      · exact absurd h hne
      · rw [if_neg h]
        exact List.mem_cons_self _ _
    · by_cases h : k' = k
      · rw [if_pos h]
        exact List.mem_cons_of_mem _ h2
      · rw [if_neg h]
        exact List.mem_cons_of_mem _ (ih h2 hne)

/-- Every member of an updated dict is the new entry or an old member. -/
theorem dictSet_mem_cases {kv : String × PySection} (k : String) (v : PySection) :
    ∀ d : List (String × PySection), kv ∈ dictSet d k v → kv = (k, v) ∨ kv ∈ d := by
  intro d
  induction d with
  | nil => intro h; simp [dictSet] at h; exact Or.inl h
  | cons kv' rest ih =>
    intro hmem
    unfold dictSet at hmem
    rw [show kv' = (kv'.1, kv'.2) from rfl] at hmem
    by_cases h : kv'.1 = k
    · rw [if_pos h] at hmem
      rcases List.mem_cons.mp hmem with h1 | h2
      · exact Or.inl h1
      · exact Or.inr (List.mem_cons_of_mem _ h2)
    · rw [if_neg h] at hmem
      rcases List.mem_cons.mp hmem with h1 | h2
      · exact Or.inr (h1 ▸ List.mem_cons_self _ _)
      · rcases ih h2 with h3 | h4
        · exact Or.inl h3
        · exact Or.inr (List.mem_cons_of_mem _ h4)

/-- A key absent from the dict differs from every member's key. -/
theorem dictFind_none {k : String} :
    ∀ d : List (String × PySection), dictFind d k = none → ∀ kv ∈ d, kv.1 ≠ k := by
  intro d
  induction d with
  | nil => intro _ kv h; cases h
  | cons kv' rest ih =>
    intro hf kv hmem
    unfold dictFind at hf
    rw [show kv' = (kv'.1, kv'.2) from rfl] at hf
    by_cases h : kv'.1 = k
    · rw [if_pos h] at hf; cases hf
    · rw [if_neg h] at hf
      rcases List.mem_cons.mp hmem with h1 | h2
      · rw [h1]; exact h
      · exact ih hf kv h2

/-- Keys of an updated dict come from the old keys or are the new key. -/
theorem mem_keys_dictSet {x k : String} (v : PySection) :
    ∀ d : List (String × PySection), x ∈ (dictSet d k v).map (fun kv => kv.1) →
      x ∈ d.map (fun kv => kv.1) ∨ x = k := by
  intro d
  induction d with
  | nil => intro h; simp [dictSet] at h; exact Or.inr h
  | cons kv' rest ih =>
    intro hmem
    unfold dictSet at hmem
    rw [show kv' = (kv'.1, kv'.2) from rfl] at hmem
    by_cases h : kv'.1 = k
    · rw [if_pos h] at hmem
      simp only [List.map_cons, List.mem_cons] at hmem ⊢
      rcases hmem with h1 | h2
      · exact Or.inr h1
      · exact Or.inl (Or.inr h2)
    · rw [if_neg h] at hmem
      simp only [List.map_cons, List.mem_cons] at hmem ⊢
      rcases hmem with h1 | h2
      · exact Or.inl (Or.inl h1)
      · rcases ih h2 with h3 | h4
        · exact Or.inl (Or.inr h3)
        · exact Or.inr h4

/-- Dict assignment preserves distinctness of keys. -/
theorem dictSet_keys_nodup (k : String) (v : PySection) :
    ∀ d : List (String × PySection), (d.map (fun kv => kv.1)).Nodup →
      ((dictSet d k v).map (fun kv => kv.1)).Nodup := by
  intro d
  induction d with
  | nil => intro _; simp [dictSet]
  | cons kv' rest ih =>
    intro hnd
    unfold dictSet
    rw [show kv' = (kv'.1, kv'.2) from rfl]
    simp only [List.map_cons, List.nodup_cons] at hnd
    by_cases h : kv'.1 = k
    · simp only [h, if_pos, List.map_cons, List.nodup_cons]
      exact ⟨h ▸ hnd.1, hnd.2⟩
    · simp only [h, if_neg, not_false_iff, List.map_cons, List.nodup_cons]
      refine ⟨?_, ih hnd.2⟩
      intro hx
      rcases mem_keys_dictSet v rest hx with h1 | h2
      · exact hnd.1 h1
      · exact h h2

/-- With distinct keys, a member's key looks up that member's value. -/
theorem dictFind_of_mem_nodup {kv : String × PySection} :
    ∀ d : List (String × PySection), (d.map (fun x => x.1)).Nodup → kv ∈ d →
      dictFind d kv.1 = some kv.2 := by
  intro d
  induction d with
  | nil => intro _ h; cases h
  | cons kv' rest ih =>
    intro hnd hmem
    simp only [List.map_cons, List.nodup_cons] at hnd
    unfold dictFind
    rw [show kv' = (kv'.1, kv'.2) from rfl]
    rcases List.mem_cons.mp hmem with h1 | h2
    · rw [h1]
      simp
    · by_cases h : kv'.1 = kv.1
      · exfalso
        exact hnd.1 (h ▸ List.mem_map_of_mem (fun x => x.1) h2)
      · rw [if_neg h]
        exact ih hnd.2 h2

/-- Lines produced by `splitNlL` contain no newline character. -/
theorem splitNl_no_nl : ∀ s : List Char, ∀ m ∈ splitNlL s, ∀ ch ∈ m, ch ≠ '\n' := by
  intro s
  induction s with
  | nil =>
    intro m hm ch hch
    simp [splitNlL] at hm
    rw [hm] at hch
    cases hch
  | cons c s ih =>
    intro m hm ch hch
    unfold splitNlL at hm
    by_cases hc : c = '\n'
    · rw [if_pos hc] at hm
      rcases List.mem_cons.mp hm with h1 | h2
      · rw [h1] at hch; cases hch
      · exact ih m h2 ch hch
    · rw [if_neg hc] at hm
      cases hs : splitNlL s with
      | nil => exact absurd hs (splitNl_ne_nil s)
      | cons l ls =>
        rw [hs] at hm
        rcases List.mem_cons.mp hm with h1 | h2
        · rw [h1] at hch
          rcases List.mem_cons.mp hch with h3 | h4
          · rw [h3]; exact hc
          · exact ih l (hs ▸ List.mem_cons_self l ls) ch h4
        · exact ih m (hs ▸ List.mem_cons_of_mem l h2) ch hch

/-- A newline-free list splits into itself. -/
theorem splitNl_of_noNl : ∀ s : List Char, (∀ ch ∈ s, ch ≠ '\n') → splitNlL s = [s] := by
  intro s
  induction s with
  | nil => intro _; rfl
  | cons c s ih =>
    intro h
    have hc : c ≠ '\n' := h c (List.mem_cons_self c s)
    unfold splitNlL
    rw [if_neg hc, ih (fun ch hch => h ch (List.mem_cons_of_mem c hch))]

/-- Splitting distributes over a newline separator. -/
theorem splitNl_append : ∀ a b : List Char, splitNlL (a ++ '\n' :: b) = splitNlL a ++ splitNlL b := by
  intro a b
  induction a with
  | nil =>
    show splitNlL ('\n' :: b) = splitNlL [] ++ splitNlL b
    conv_lhs => rw [splitNlL]
    simp [splitNlL]
  | cons c a ih =>
    show splitNlL (c :: (a ++ '\n' :: b)) = splitNlL (c :: a) ++ splitNlL b
    conv_lhs => rw [splitNlL]
    conv_rhs => rw [splitNlL]
    by_cases hc : c = '\n'
    · rw [if_pos hc, if_pos hc, ih]
      simp
    · rw [if_neg hc, if_neg hc, ih]
      cases ha : splitNlL a with
      | nil => exact absurd ha (splitNl_ne_nil a)
      | cons l ls => simp

/-- Joining newline-free lines and splitting again is the identity
(list level). -/
theorem splitNl_joinNl_list :
    ∀ ls : List (List Char), ls ≠ [] → (∀ x ∈ ls, ∀ ch ∈ x, ch ≠ '\n') →
      splitNlL (joinNlL ls) = ls := by
  intro ls
  induction ls with
  | nil => intro h; exact absurd rfl h
  | cons x ls ih =>
    intro _ hnl
    cases ls with
    | nil =>
      show splitNlL x = [x]
      exact splitNl_of_noNl x (hnl x (List.mem_cons_self x []))
    | cons y r =>
      show splitNlL (x ++ '\n' :: joinNlL (y :: r)) = x :: y :: r
      rw [splitNl_append, splitNl_of_noNl x (hnl x (List.mem_cons_self _ _)),
        ih (by simp) (fun z hz => hnl z (List.mem_cons_of_mem x hz))]
      rfl

/-- Mapping `String.mk` over the underlying data lists is the identity. -/
theorem map_mk_data : ∀ ls : List String, ls.map (fun s => String.mk s.data) = ls := by
  intro ls
  induction ls with
  | nil => rfl
  | cons s ls ih =>
    show String.mk s.data :: ls.map (fun s => String.mk s.data) = s :: ls
    rw [ih]

/-- A newline-free string splits into the singleton of itself. -/
theorem sSplitNl_of_noNl (s : String) (h : ∀ ch ∈ s.data, ch ≠ '\n') :
    sSplitNl s = [s] := by
  unfold sSplitNl
  rw [splitNl_of_noNl s.data h]
  rfl

/-- Joining newline-free lines and splitting again is the identity. -/
theorem sSplitNl_sJoinNl (cc : List String) (hne : cc ≠ [])
    (hnl : ∀ x ∈ cc, ∀ ch ∈ x.data, ch ≠ '\n') :
    sSplitNl (sJoinNl cc) = cc := by
  unfold sSplitNl sJoinNl
  rw [show (String.mk (joinNlL (cc.map String.data))).data = joinNlL (cc.map String.data)
    from rfl]
  rw [splitNl_joinNl_list (cc.map String.data) (by simpa using hne) ?hnl]
  · rw [List.map_map]
    exact map_mk_data cc
  · intro x hx
    rcases List.mem_map.mp hx with ⟨s, hs, hxs⟩
    rw [← hxs]
    exact hnl s hs

/-- Appending `"\n" ++ line` to a string appends one split line. -/
theorem sSplitNl_append_line (a line : String) (h : ∀ ch ∈ line.data, ch ≠ '\n') :
    sSplitNl (a ++ "\n" ++ line) = sSplitNl a ++ [line] := by
  unfold sSplitNl
  have hd : (a ++ "\n" ++ line).data = a.data ++ '\n' :: line.data := by
    show (a.data ++ ['\n']) ++ line.data = a.data ++ '\n' :: line.data
    rw [List.append_assoc]
    rfl
  rw [hd, splitNl_append, splitNl_of_noNl line.data h, List.map_append]
  rfl

/-! ### Step equations for `parseLoop` -/

/-- `saveSec` is a dict assignment whose value holds the joined body. -/
theorem saveSec_shape (secs : List (String × PySection)) (cur : String) (lvl : Nat)
    (cc : List String) (e : Nat) :
    ∃ v : PySection, saveSec secs cur lvl cc e = dictSet secs cur v ∧ v.content = sJoinNl cc :=
  ⟨_, rfl, rfl⟩

/-- `parseLoop` at the end of input with an open section. -/
theorem parseLoop_nil_some (i : Nat) (secs : List (String × PySection)) (t : String)
    (lvl : Nat) (cc : List String) :
    parseLoop [] i secs (some (t, lvl)) cc = saveSec secs t lvl cc (i - 1) := rfl

/-- `parseLoop` at the end of input with no open section. -/
theorem parseLoop_nil_none (i : Nat) (secs : List (String × PySection)) (cc : List String) :
    parseLoop [] i secs none cc = secs := rfl

/-- `parseLoop` at a heading line while a section is open: the open section
is saved, then a fresh entry is created. -/
theorem parseLoop_cons_some_cur (line : String) (rest : List String) (i : Nat)
    (secs : List (String × PySection)) (t0 : String) (lvl0 : Nat) (cc : List String)
    (lvl' : Nat) (title : String) (hm : headerMatch line = some (lvl', title)) :
    parseLoop (line :: rest) i secs (some (t0, lvl0)) cc =
      parseLoop rest (i + 1)
        (dictSet (saveSec secs t0 lvl0 cc (i - 1)) title { line_start := i })
        (some (title, lvl')) [] := by
  simp only [parseLoop]
  rw [hm]

/-- `parseLoop` at the first heading line (no open section). -/
theorem parseLoop_cons_some_nocur (line : String) (rest : List String) (i : Nat)
    (secs : List (String × PySection)) (cc : List String)
    (lvl' : Nat) (title : String) (hm : headerMatch line = some (lvl', title)) :
    parseLoop (line :: rest) i secs none cc =
      parseLoop rest (i + 1) (dictSet secs title { line_start := i })
        (some (title, lvl')) [] := by
  simp only [parseLoop]
  rw [hm]

/-- `parseLoop` at a body line inside a section. -/
theorem parseLoop_cons_body (line : String) (rest : List String) (i : Nat)
    (secs : List (String × PySection)) (p : String × Nat) (cc : List String)
    (hm : headerMatch line = none) :
    parseLoop (line :: rest) i secs (some p) cc =
      parseLoop rest (i + 1) secs (some p) (cc ++ [line]) := by
  simp only [parseLoop]
  rw [hm]

/-- `parseLoop` at a preamble line when no preamble entry exists yet. -/
theorem parseLoop_cons_pre_new (line : String) (rest : List String) (i : Nat)
    (secs : List (String × PySection)) (cc : List String)
    (hm : headerMatch line = none) (hf : dictFind secs "preamble" = none) :
    parseLoop (line :: rest) i secs none cc =
      parseLoop rest (i + 1)
        (dictSet secs "preamble"
          { level := 0, content := line, line_start := 0, line_end := i }) none cc := by
  simp only [parseLoop]
  rw [hm, hf]

/-- `parseLoop` at a preamble line when the preamble entry already exists. -/
theorem parseLoop_cons_pre_app (line : String) (rest : List String) (i : Nat)
    (secs : List (String × PySection)) (cc : List String) (p : PySection)
    (hm : headerMatch line = none) (hf : dictFind secs "preamble" = some p) :
    parseLoop (line :: rest) i secs none cc =
      parseLoop rest (i + 1)
        (dictSet secs "preamble"
          { p with content := p.content ++ "\n" ++ line, line_end := i }) none cc := by
  simp only [parseLoop]
  rw [hm, hf]

/-- Heading titles of a list starting with a heading line. -/
theorem headingTitles_cons_some {line : String} (ls : List String) {lvl : Nat} {t : String}
    (hm : headerMatch line = some (lvl, t)) :
    headingTitles (line :: ls) = t :: headingTitles ls := by
  simp [headingTitles, List.filterMap_cons, hm]

/-- Heading titles of a list starting with a non-heading line. -/
theorem headingTitles_cons_none {line : String} (ls : List String)
    (hm : headerMatch line = none) :
    headingTitles (line :: ls) = headingTitles ls := by
  simp [headingTitles, List.filterMap_cons, hm]

/-- Main invariance lemma for `_parse_sections`: as long as the remaining
heading titles are pairwise distinct, fresh with respect to the dict keys and
the open section, and none of them is `preamble`, every line that is pending
in the accumulator, already recorded in a closed section (or the preamble),
or still to come as a non-heading line, ends up in some section's content of
the final dict. -/
theorem parseLoop_keeps (l : String) :
    ∀ (ls : List String) (i : Nat) (secs : List (String × PySection))
      (cur : Option (String × Nat)) (cc : List String),
      (headingTitles ls).Nodup →
      (∀ kv ∈ secs, kv.1 ∉ headingTitles ls) →
      (∀ t lvl, cur = some (t, lvl) → t ∉ headingTitles ls ∧ t ≠ "preamble") →
      "preamble" ∉ headingTitles ls →
      (∀ x ∈ ls, ∀ ch ∈ x.data, ch ≠ '\n') →
      (∀ x ∈ cc, ∀ ch ∈ x.data, ch ≠ '\n') →
      (secs.map (fun kv => kv.1)).Nodup →
      ((∃ t lvl, cur = some (t, lvl) ∧ l ∈ cc) ∨
        (∃ kv ∈ secs, (∀ t lvl, cur = some (t, lvl) → kv.1 ≠ t) ∧
          l ∈ sSplitNl kv.2.content) ∨
        (l ∈ ls ∧ headerMatch l = none)) →
      ∃ kv ∈ parseLoop ls i secs cur cc, l ∈ sSplitNl kv.2.content := by
  intro ls
  induction ls with
  | nil =>
    intro i secs cur cc _ _ hcur _ _ hccnl _ hgood
    cases cur with
    | none =>
      rw [parseLoop_nil_none]
      rcases hgood with ⟨t, lvl, h, _⟩ | ⟨kv, hkv, _, hl⟩ | ⟨hl, _⟩
      · cases h
      · exact ⟨kv, hkv, hl⟩
      · cases hl
    | some p =>
      obtain ⟨t0, lvl0⟩ := p
      rw [parseLoop_nil_some]
      obtain ⟨v, hv, hvc⟩ := saveSec_shape secs t0 lvl0 cc (i - 1)
      rw [hv]
      rcases hgood with ⟨t', lvl', h, hlcc⟩ | ⟨kv, hkv, hne, hl⟩ | ⟨hl, _⟩
      · refine ⟨(t0, v), dictSet_mem_self t0 v secs, ?_⟩
        show l ∈ sSplitNl v.content
        rw [hvc, sSplitNl_sJoinNl cc (by rintro rfl; cases hlcc) hccnl]
        exact hlcc
      · exact ⟨kv, dictSet_mem_of_ne t0 v secs hkv (hne t0 lvl0 rfl), hl⟩
      · cases hl
  | cons line ls ih =>
    intro i secs cur cc hnodup hsecs hcur hpre hlsnl hccnl hkeys hgood
    have hlinenl : ∀ ch ∈ line.data, ch ≠ '\n' :=
      hlsnl line (List.mem_cons_self line ls)
    have hlsnl' : ∀ x ∈ ls, ∀ ch ∈ x.data, ch ≠ '\n' :=
      fun x hx => hlsnl x (List.mem_cons_of_mem line hx)
    cases hm : headerMatch line with
    | some p =>
      obtain ⟨lvl', title⟩ := p
      have htitles := headingTitles_cons_some ls hm
      rw [htitles] at hnodup hsecs hcur hpre
      simp only [List.nodup_cons] at hnodup
      have htitle_notin : title ∉ headingTitles ls := hnodup.1
      have htitle_ne_pre : title ≠ "preamble" := fun h => hpre (h ▸ List.mem_cons_self _ _)
      cases cur with
      | none =>
        rw [parseLoop_cons_some_nocur line ls i secs cc lvl' title hm]
        refine ih (i + 1) (dictSet secs title { line_start := i }) (some (title, lvl')) []
          hnodup.2 ?_ ?_ (fun h => hpre (List.mem_cons_of_mem _ h)) hlsnl'
          (fun x hx => absurd hx (List.not_mem_nil x))
          (dictSet_keys_nodup title _ secs hkeys) ?_
        · intro kv hkv
          rcases dictSet_mem_cases title { line_start := i } secs hkv with h1 | h2
          · rw [h1]; exact htitle_notin
          · exact fun hmem => hsecs kv h2 (List.mem_cons_of_mem _ hmem)
        · rintro t lvl h
          injection h with h
          injection h with h1 h2
          subst h1
          exact ⟨htitle_notin, htitle_ne_pre⟩
        · rcases hgood with ⟨t', lvl'', h, _⟩ | ⟨kv, hkv, _, hl⟩ | ⟨hl, hlnone⟩
          · cases h
          · refine Or.inr (Or.inl ⟨kv, ?_, ?_, hl⟩)
            · refine dictSet_mem_of_ne title { line_start := i } secs hkv ?_
              intro h
              exact hsecs kv hkv (h ▸ List.mem_cons_self _ _)
            · intro t lvl h
              injection h with h
              injection h with h1 _
              subst h1
              intro h
              exact hsecs kv hkv (h ▸ List.mem_cons_self _ _)
          · rcases List.mem_cons.mp hl with h1 | h2
            · exfalso; rw [h1, hm] at hlnone; cases hlnone
            · exact Or.inr (Or.inr ⟨h2, hlnone⟩)
      | some p0 =>
        obtain ⟨t0, lvl0⟩ := p0
        obtain ⟨ht0_notin, ht0_ne_pre⟩ := hcur t0 lvl0 rfl
        have ht0_ne_title : t0 ≠ title := fun h =>
          (h ▸ ht0_notin) (List.mem_cons_self _ _)
        have ht0_notin' : t0 ∉ headingTitles ls :=
          fun h => ht0_notin (List.mem_cons_of_mem _ h)
        rw [parseLoop_cons_some_cur line ls i secs t0 lvl0 cc lvl' title hm]
        obtain ⟨v, hv, hvc⟩ := saveSec_shape secs t0 lvl0 cc (i - 1)
        rw [hv]
        refine ih (i + 1) (dictSet (dictSet secs t0 v) title { line_start := i })
          (some (title, lvl')) [] hnodup.2 ?_ ?_
          (fun h => hpre (List.mem_cons_of_mem _ h)) hlsnl'
          (fun x hx => absurd hx (List.not_mem_nil x))
          (dictSet_keys_nodup title _ _ (dictSet_keys_nodup t0 v secs hkeys)) ?_
        · intro kv hkv
          rcases dictSet_mem_cases title { line_start := i } (dictSet secs t0 v) hkv
            with h1 | h2
          · rw [h1]; exact htitle_notin
          · rcases dictSet_mem_cases t0 v secs h2 with h3 | h4
            · rw [h3]; exact ht0_notin'
            · exact fun hmem => hsecs kv h4 (List.mem_cons_of_mem _ hmem)
        · rintro t lvl h
          injection h with h
          injection h with h1 h2
          subst h1
          exact ⟨htitle_notin, htitle_ne_pre⟩
        · rcases hgood with ⟨t', lvl'', h, hlcc⟩ | ⟨kv, hkv, hne, hl⟩ | ⟨hl, hlnone⟩
          · refine Or.inr (Or.inl ⟨(t0, v), ?_, ?_, ?_⟩)
            · exact dictSet_mem_of_ne title { line_start := i } (dictSet secs t0 v)
                (dictSet_mem_self t0 v secs) ht0_ne_title
            · intro t lvl h
              injection h with h
              injection h with h1 _
              subst h1
              exact ht0_ne_title
            · show l ∈ sSplitNl v.content
              rw [hvc, sSplitNl_sJoinNl cc (by rintro rfl; cases hlcc) hccnl]
              exact hlcc
          · have hkv_ne_t0 : kv.1 ≠ t0 := hne t0 lvl0 rfl
            have hkv_ne_title : kv.1 ≠ title := fun h =>
              hsecs kv hkv (h ▸ List.mem_cons_self _ _)
            refine Or.inr (Or.inl ⟨kv, ?_, ?_, hl⟩)
            · exact dictSet_mem_of_ne title { line_start := i } (dictSet secs t0 v)
                (dictSet_mem_of_ne t0 v secs hkv hkv_ne_t0) hkv_ne_title
            · intro t lvl h
              injection h with h
              injection h with h1 _
              subst h1
              exact hkv_ne_title
          · rcases List.mem_cons.mp hl with h1 | h2
            · exfalso; rw [h1, hm] at hlnone; cases hlnone
            · exact Or.inr (Or.inr ⟨h2, hlnone⟩)
    | none =>
      have htitles := headingTitles_cons_none ls hm
      rw [htitles] at hnodup hsecs hcur hpre
      cases cur with
      | some p0 =>
        rw [parseLoop_cons_body line ls i secs p0 cc hm]
        refine ih (i + 1) secs (some p0) (cc ++ [line]) hnodup hsecs hcur hpre hlsnl' ?_
          hkeys ?_
        · intro x hx
          rcases List.mem_append.mp hx with h1 | h2
          · exact hccnl x h1
          · rw [List.mem_singleton.mp h2]; exact hlinenl
        · obtain ⟨t0, lvl0⟩ := p0
          rcases hgood with ⟨t', lvl'', h, hlcc⟩ | ⟨kv, hkv, hne, hl⟩ | ⟨hl, hlnone⟩
          · exact Or.inl ⟨t0, lvl0, rfl, List.mem_append.mpr (Or.inl hlcc)⟩
          · exact Or.inr (Or.inl ⟨kv, hkv, hne, hl⟩)
          · rcases List.mem_cons.mp hl with h1 | h2
            · exact Or.inl ⟨t0, lvl0, rfl, List.mem_append.mpr (Or.inr (h1 ▸
                List.mem_singleton_self line))⟩
            · exact Or.inr (Or.inr ⟨h2, hlnone⟩)
      | none =>
        cases hf : dictFind secs "preamble" with
        | none =>
          rw [parseLoop_cons_pre_new line ls i secs cc hm hf]
          refine ih (i + 1)
            (dictSet secs "preamble"
              { level := 0, content := line, line_start := 0, line_end := i }) none cc
            hnodup ?_ (fun t lvl h => nomatch h) hpre hlsnl' hccnl
            (dictSet_keys_nodup "preamble" _ secs hkeys) ?_
          · intro kv hkv
            rcases dictSet_mem_cases "preamble" _ secs hkv with h1 | h2
            · rw [h1]; exact hpre
            · exact hsecs kv h2
          · rcases hgood with ⟨t', lvl'', h, _⟩ | ⟨kv, hkv, _, hl⟩ | ⟨hl, hlnone⟩
            · cases h
            · refine Or.inr (Or.inl ⟨kv, ?_, ⟨(fun t lvl h => nomatch h), hl⟩⟩)
              exact dictSet_mem_of_ne "preamble" _ secs hkv (dictFind_none secs hf kv hkv)
            · rcases List.mem_cons.mp hl with h1 | h2
              · refine Or.inr (Or.inl ⟨("preamble",
                  { level := 0, content := line, line_start := 0, line_end := i }), ?_,
                  ⟨(fun t lvl h => nomatch h), ?_⟩⟩)
                · exact dictSet_mem_self "preamble" _ secs
                · show l ∈ sSplitNl line
                  rw [sSplitNl_of_noNl line hlinenl, h1]
                  exact List.mem_singleton_self line
              · exact Or.inr (Or.inr ⟨h2, hlnone⟩)
        | some p =>
          rw [parseLoop_cons_pre_app line ls i secs cc p hm hf]
          refine ih (i + 1)
            (dictSet secs "preamble"
              { p with content := p.content ++ "\n" ++ line, line_end := i }) none cc
            hnodup ?_ (fun t lvl h => nomatch h) hpre hlsnl' hccnl
            (dictSet_keys_nodup "preamble" _ secs hkeys) ?_
          · intro kv hkv
            rcases dictSet_mem_cases "preamble" _ secs hkv with h1 | h2
            · rw [h1]; exact hpre
            · exact hsecs kv h2
          · rcases hgood with ⟨t', lvl'', h, _⟩ | ⟨kv, hkv, _, hl⟩ | ⟨hl, hlnone⟩
            · cases h
            · by_cases hkvpre : kv.1 = "preamble"
              · have hkv2 : kv.2 = p := by
                  have hfind := dictFind_of_mem_nodup secs hkeys hkv
                  rw [hkvpre, hf] at hfind
                  injection hfind with hfind
                  exact hfind.symm
                refine Or.inr (Or.inl ⟨("preamble",
                  { p with content := p.content ++ "\n" ++ line, line_end := i }), ?_,
                  ⟨(fun t lvl h => nomatch h), ?_⟩⟩)
                · exact dictSet_mem_self "preamble" _ secs
                · show l ∈ sSplitNl (p.content ++ "\n" ++ line)
                  rw [sSplitNl_append_line p.content line hlinenl]
                  refine List.mem_append.mpr (Or.inl ?_)
                  rw [← hkv2]
                  exact hl
              · refine Or.inr (Or.inl ⟨kv, ?_, ⟨(fun t lvl h => nomatch h), hl⟩⟩)
                exact dictSet_mem_of_ne "preamble" _ secs hkv hkvpre
            · rcases List.mem_cons.mp hl with h1 | h2
              · refine Or.inr (Or.inl ⟨("preamble",
                  { p with content := p.content ++ "\n" ++ line, line_end := i }), ?_,
                  ⟨(fun t lvl h => nomatch h), ?_⟩⟩)
                · exact dictSet_mem_self "preamble" _ secs
                · show l ∈ sSplitNl (p.content ++ "\n" ++ line)
                  rw [sSplitNl_append_line p.content line hlinenl]
                  exact List.mem_append.mpr (Or.inr (h1 ▸ List.mem_singleton_self line))
              · exact Or.inr (Or.inr ⟨h2, hlnone⟩)

/-- Lines of a split string are newline-free (string level). -/
theorem sSplitNl_no_nl (s : String) : ∀ x ∈ sSplitNl s, ∀ ch ∈ x.data, ch ≠ '\n' := by
  intro x hx ch hch
  rcases List.mem_map.mp hx with ⟨m, hm, hxm⟩
  rw [← hxm] at hch
  exact splitNl_no_nl s.data m hm ch hch

/-- `takeWhile` of hash characters on a replicate-prefixed list. -/
theorem takeWhile_hash_replicate (c : Char) (rest : List Char) (hc : c ≠ '#') :
    ∀ k : Nat, (List.replicate k '#' ++ c :: rest).takeWhile (fun x => x = '#') =
      List.replicate k '#' := by
  intro k
  induction k with
  | zero =>
    show (c :: rest).takeWhile (fun x => x = '#') = []
    simp [List.takeWhile_cons, hc]
  | succ n ih =>
    show (('#' :: (List.replicate n '#' ++ c :: rest)).takeWhile (fun x => x = '#')) =
      '#' :: List.replicate n '#'
    rw [List.takeWhile_cons]
    simp only [decide_eq_true_eq]
    rw [if_pos trivial, ih]

/-! ## Claim C1 — insertion point for a synthesized version block -/

/-- Claim C1 as stated is false: its middle branch says that when no
top-level `Release Notes` title exists but the document has headings, the new
block is inserted before the first heading.  The code instead tests only for
the substring `"Release Notes"` and, failing that, unconditionally prepends a
synthesized `# Release Notes` title plus the block in front of the whole
document — even when headings exist.  On `"# Title\n"` the code result
differs from the claimed insertion (`specInsertNewBlock`, modelled from the
claim's words). -/
theorem c1_counterexample :
    let entry := String.mk
      (newEntryText "2026-10-12" "## v1.0.0".data (buildChanges { new_features := ["A"] }))
    let r := updateChangelog "2026-10-12" (loadState "# Title\n")
      { new_features := ["A"] } "v1.0.0"
    r.1.content ≠ specInsertNewBlock "# Title\n" entry ∧
      r.1.content = "# Release Notes\n" ++ entry ++ "# Title\n" ∧
      specInsertNewBlock "# Title\n" entry = entry ++ "# Title\n" := by
  refine ⟨by decide, by decide, by decide⟩

/-- Claim C1, amended: when `update_changelog` finds no existing version
block (and the ChangeSet has new features, so a block is synthesized), the
call returns true and inserts as follows: if the document does not contain
the substring `"Release Notes"` anywhere, the code prepends
`"# Release Notes\n"` plus the new block in front of the entire document,
regardless of any existing headings; if it does, the block is inserted
immediately after the first line containing `"# Release Notes"` (any heading
level, even mid-line); if the substring occurs but no single line contains
`"# Release Notes"`, the block is appended at document end.  In particular a
document whose first line contains `# Release Notes` receives the new block
immediately beneath that line. -/
theorem c1_insertion_amended (today version : String) (st : UpdaterState) (a : Analysis)
    (hnf : a.new_features ≠ [])
    (hnone : findVer ("## " ++ version).data st.content.data = none) :
    (updateChangelog today st a version).2 = true ∧
    (loccurs "Release Notes".data st.content.data = false →
      (updateChangelog today st a version).1.content =
        String.mk ("# Release Notes\n".data ++
          newEntryText today ("## " ++ version).data (buildChanges a) ++ st.content.data)) ∧
    (∀ (l0 : List Char) (ls : List (List Char)),
      splitKeepL st.content.data = l0 :: ls →
      loccurs "# Release Notes".data l0 = true →
      (updateChangelog today st a version).1.content =
        String.mk (l0 ++ newEntryText today ("## " ++ version).data (buildChanges a) ++
          ls.flatten)) ∧
    (loccurs "Release Notes".data st.content.data = true →
      (∀ l ∈ splitKeepL st.content.data, loccurs "# Release Notes".data l = false) →
      (updateChangelog today st a version).1.content =
        st.content ++
          String.mk (newEntryText today ("## " ++ version).data (buildChanges a))) := by
  have hguard : ¬(a.new_features = [] ∧ a.removed_features = [] ∧ a.modified_features = [] ∧
      a.configuration_updates = []) := fun hh => hnf hh.1
  have hchanges := buildChanges_ne_nil a hnf
  have key : updateChangelog today st a version =
      (if loccurs "Release Notes".data st.content.data = true then
        match insertRN (splitKeepL st.content.data)
            (newEntryText today ("## " ++ version).data (buildChanges a)) with
        | some ls2 => ({ st with content := String.mk ls2.flatten }, true)
        | none =>
          ({ st with content := String.mk (st.content.data ++
              newEntryText today ("## " ++ version).data (buildChanges a)) }, true)
      else
        ({ st with content := String.mk ("# Release Notes\n".data ++
            newEntryText today ("## " ++ version).data (buildChanges a) ++
            st.content.data) }, true)) := by
    simp only [updateChangelog]
    rw [if_neg hguard, if_neg hchanges, hnone]
  refine ⟨?_, ?_, ?_, ?_⟩
  · rw [key]
    by_cases hRN : loccurs "Release Notes".data st.content.data = true
    · rw [if_pos hRN]
      cases insertRN (splitKeepL st.content.data)
          (newEntryText today ("## " ++ version).data (buildChanges a)) <;> rfl
    · rw [if_neg hRN]
  · intro hRN
    rw [key, hRN]
    rfl
  · intro l0 ls hsplit hl0
    have hflat : l0 ++ ls.flatten = st.content.data := by
      have h1 := splitKeep_flatten st.content.data
      rw [hsplit] at h1
      simpa using h1
    have hRN : loccurs "Release Notes".data st.content.data = true := by
      have h2 : loccurs "Release Notes".data l0 = true :=
        loccurs_trans (by decide) hl0
      have h3 : loccurs l0 st.content.data = true :=
        (loccurs_iff l0 st.content.data).mpr ⟨[], ls.flatten, by simp [hflat]⟩
      exact loccurs_trans h2 h3
    rw [key, if_pos hRN, hsplit,
      insertRN_head l0 ls (newEntryText today ("## " ++ version).data (buildChanges a)) hl0]
    simp [List.append_assoc]
  · intro hRN hall
    rw [key, if_pos hRN,
      insertRN_none (newEntryText today ("## " ++ version).data (buildChanges a))
        (splitKeepL st.content.data) hall]
    rfl

/-- Witness for `c1_insertion_amended` at a concrete input (a document whose
first line is `# Release Notes`): the new block lands immediately beneath
that title. -/
theorem c1_insertion_amended_witness :
    (updateChangelog "2026-10-12" (loadState "# Release Notes\nrest\n")
        { new_features := ["A"] } "v1.0.0").1.content =
      String.mk ("# Release Notes\n".data ++
        newEntryText "2026-10-12" ("## " ++ "v1.0.0").data
          (buildChanges { new_features := ["A"] }) ++ ["rest\n".data].flatten) :=
  (c1_insertion_amended "2026-10-12" "v1.0.0" (loadState "# Release Notes\nrest\n")
      { new_features := ["A"] } (by decide) (by decide)).2.2.1
    "# Release Notes\n".data ["rest\n".data] (by decide) (by decide)

/-! ## Claim C2 — idempotence of `update_changelog` -/

/-- Claim C2: applying the same ChangeSet twice must yield text identical to
applying it once.  The code violates this.  Starting from the document
`"## v1\n### Changed\n- old\n"` with the ChangeSet
`{new_features := ["alpha"], modified_features := ["y ### Added"]}` and
version `"v1"`, the first call appends a `### Added` block and the bullet
`- y ### Added`; on the second call the category regex `### Added\n` matches
the *tail of that bullet line*, finds an empty bullet list there, and
`str.replace` then splices `- alpha` in twice more — the text after two calls
differs from the text after one. -/
theorem c2_changelog_not_idempotent :
    let cs : Analysis := { new_features := ["alpha"], modified_features := ["y ### Added"] }
    let r1 := updateChangelog "2026-10-12" (loadState "## v1\n### Changed\n- old\n") cs "v1"
    let r2 := updateChangelog "2026-10-12" r1.1 cs "v1"
    r1.2 = true ∧ r2.2 = true ∧ r2.1.content ≠ r1.1.content := by
  refine ⟨by decide, by decide, by decide⟩

/-! ## Claim C4 — duplicate suppression on bullet insertion -/

/-- Claim C4 as stated is false: in `update_changelog` (lines 163–167) the
duplicate check on changelog bullets is a *case-sensitive* substring test of
the trimmed candidate line, not a case-insensitive one.  With an existing
`### Added` holding `- a`, the candidate feature `"A"` is covered
case-insensitively, yet the code appends `- A`. -/
theorem c4_counterexample :
    let st := loadState "## v1\n\n### Added\n- a\n"
    let r := updateChangelog "2026-10-12" st { new_features := ["A"] } "v1"
    sContains (sLower st.content) (sLower "- A") = true ∧
      r.1.content = "## v1\n\n### Added\n- a\n- A\n" ∧ r.2 = true := by
  refine ⟨by decide, by decide, by decide⟩

/-- Claim C4, amended: duplicate suppression is case-insensitive only for the
section-level loops (`_add_features` line 261 and `_update_configuration`
line 328, which share their loop verbatim): an item is appended as a bullet
exactly when the lowered item does not occur in the lowered original section
content.  For changelog categories (lines 163–167) the rule is a
*case-sensitive* substring test: a candidate line is kept exactly when its
trimmed text does not occur in the existing category bullets.  Both loops are
exhibited as their declarative filter forms. -/
theorem c4_bullet_dedup_amended :
    (∀ (content : String) (items : List String),
      appendNonDup content items =
        normBase content ++
          sFlat ((items.filter
              (fun f => !(sContains (sLower content) (sLower f)))).map
            (fun f => "- " ++ f ++ "\n"))) ∧
    (∀ bullets existing : List Char,
      newUnique bullets existing =
        ((splitKeepL bullets).filter (fun l => !(loccurs (stripL l) existing))).flatten) :=
  ⟨appendNonDup_eq_filter, newUnique_eq_filter⟩

/-! ## Claim C3 — merging categories into an existing version block -/

/-- Claim C3: when `update_changelog` finds an existing `## {version}` block:
a category sub-block that exists receives only bullets not already present —
in particular any bullet already present as an exact trimmed line is covered
by the code's substring check and is never appended (conjunct 2, with the
filter characterization in `newUnique_eq_filter`); a sub-block all of whose
candidate bullets are covered is left untouched (conjuncts 3 and 4); a
missing sub-block is appended, with all of its bullets, to the end of the
version body (conjunct 5).  The claim's concrete scenario (conjunct 1):
starting from `"## v1.0.0\n\n### Added\n- A\n"`, the ChangeSet
`{new_features := ["A","B"]}` with label `"v1.0.0"` yields a single
`### Added` block holding `- A` once and `- B` once, in that order. -/
theorem c3_category_merge :
    ((updateChangelog "2026-10-12" (loadState "## v1.0.0\n\n### Added\n- A\n")
        { new_features := ["A", "B"] } "v1.0.0").1.content =
          "## v1.0.0\n\n### Added\n- A\n- B\n" ∧
      (updateChangelog "2026-10-12" (loadState "## v1.0.0\n\n### Added\n- A\n")
        { new_features := ["A", "B"] } "v1.0.0").2 = true) ∧
    (∀ g2 l : List Char, (∃ m ∈ splitNlL g2, stripL m = stripL l) →
      loccurs (stripL l) g2 = true) ∧
    (∀ bullets g2 : List Char,
      (∀ l ∈ splitKeepL bullets, loccurs (stripL l) g2 = true) →
      newUnique bullets g2 = []) ∧
    (∀ (nb : List Char) (cat : String) (bullets g2 : List Char),
      loccurs ("### " ++ cat).data nb = true →
      findCat (("### " ++ cat).data ++ ['\n']) nb = some g2 →
      newUnique bullets g2 = [] →
      mergeCat nb cat bullets = nb) ∧
    (∀ (nb : List Char) (cat : String) (bullets : List Char),
      loccurs ("### " ++ cat).data nb = false →
      mergeCat nb cat bullets =
        rstripL nb ++ '\n' :: '\n' :: ("### " ++ cat).data ++ '\n' :: bullets) := by
  refine ⟨⟨by decide, by decide⟩, ?_, ?_, ?_, ?_⟩
  · rintro g2 l ⟨m, hm, hstrip⟩
    rw [← hstrip]
    exact loccurs_trans (loccurs_stripL m) (loccurs_of_mem_splitNl hm)
  · intro bullets g2 hall
    rw [newUnique_eq_filter]
    have : (splitKeepL bullets).filter (fun l => !(loccurs (stripL l) g2)) = [] := by
      rw [List.filter_eq_nil_iff]
      intro a ha
      simp [hall a ha]
    rw [this]
    rfl
  · intro nb cat bullets g2 h1 hfind h2
    simp only [mergeCat]
    rw [h1, hfind]
    simp [h2]
  · intro nb cat bullets h
    simp only [mergeCat]
    rw [h]
    simp

/-- Witness for `c3_category_merge` at concrete inputs. -/
theorem c3_category_merge_witness :
    loccurs (stripL "- A\n".data) "- A\n".data = true ∧
      mergeCat "x".data "Added" "- b\n".data =
        rstripL "x".data ++ '\n' :: '\n' :: ("### " ++ "Added").data ++ '\n' :: "- b\n".data :=
  ⟨c3_category_merge.2.1 "- A\n".data "- A\n".data (by decide),
   c3_category_merge.2.2.2.2 "x".data "Added" "- b\n".data (by decide)⟩

/-! ## Claim C5 — no-op on an empty ChangeSet -/

/-- Claim C5 as stated is false: it requires only the four category lists
(new, removed, modified, configuration) to be empty, but
`update_from_analysis` also renders `documentation_entries`.  A ChangeSet
whose four category lists are empty but which carries one documentation
entry modifies the document and returns true. -/
theorem c5_counterexample :
    let cs : Analysis := { documentation_entries := [{ name := some "X", description := some "d" }] }
    let r := updateFromAnalysis (loadState "# T\n") cs
    cs.new_features = [] ∧ cs.removed_features = [] ∧ cs.modified_features = [] ∧
      cs.configuration_updates = [] ∧ r.2 = true ∧ r.1.content ≠ "# T\n" := by
  refine ⟨rfl, rfl, rfl, rfl, by decide, by decide⟩

/-- Claim C5, amended: a ChangeSet whose four category lists *and*
`documentation_entries` are all empty is a no-op — `update_changelog` and
`update_from_analysis` leave the state untouched and return false, and so
does every individual merge operation on an empty list. -/
theorem c5_empty_changeset_noop :
    ∀ (today version : String) (st : UpdaterState),
      updateChangelog today st {} version = (st, false) ∧
      updateFromAnalysis st {} = (st, false) ∧
      addFeatures st [] = (st, false) ∧
      removeFeatures st [] = (st, false) ∧
      updateFeatures st [] = (st, false) ∧
      updateConfiguration st [] = (st, false) ∧
      updateDocEntries st [] = (st, false) := by
  intro today version st
  refine ⟨rfl, rfl, rfl, rfl, rfl, rfl, rfl⟩

/-! ## Claim C6 — document-wide removal of feature bullets -/

/-- Claim C6: `_remove_features` performs a document-wide sweep.  Conjunct 1:
for *every* section of the document (not only Features), the result is that
section with the `re.sub` bullet sweep applied to its content — so one call
treats all sections alike.  Conjunct 2: any newline-free line that is a
bullet (`-`, `*` or `+` marker, whitespace, text containing the target
case-insensitively) is deleted in full by the sweep.  Conjunct 3: on a
document holding an "Old Feature" bullet in two different sections, one call
removes it from both (case-insensitively), leaving no occurrence anywhere. -/
theorem c6_remove_sweep :
    (∀ (st : UpdaterState) (fs : List String),
      (removeFeatures st fs).1.sections =
        st.sections.map
          (fun kv => (kv.1, { kv.2 with content := bulletSubAll fs kv.2.content }))) ∧
    (∀ (feature : String) (line : List Char),
      (∀ x ∈ line, x ≠ '\n') → claimBullet feature line = true →
      bulletSub feature (String.mk line) = "") ∧
    ((removeFeatures
        (loadState "## A\n- Old Feature\n\n## B\ntext\n- old feature here\n")
        ["Old Feature"]).2 = true ∧
      ((dictFind (removeFeatures
        (loadState "## A\n- Old Feature\n\n## B\ntext\n- old feature here\n")
        ["Old Feature"]).1.sections "A").getD {}).content = "\n" ∧
      ((dictFind (removeFeatures
        (loadState "## A\n- Old Feature\n\n## B\ntext\n- old feature here\n")
        ["Old Feature"]).1.sections "B").getD {}).content = "text\n\n" ∧
      sContains (sLower (removeFeatures
        (loadState "## A\n- Old Feature\n\n## B\ntext\n- old feature here\n")
        ["Old Feature"]).1.content) "old feature" = false) := by
  refine ⟨?_, fun feature line hnl hcb => bulletSub_deletes feature line hnl hcb,
    by decide, by decide, by decide, by decide⟩
  intro st fs
  have hmapid : ∀ l : List (String × PySection),
      (∀ kv ∈ l, bulletSubAll fs kv.2.content = kv.2.content) →
      l.map (fun kv => (kv.1, { kv.2 with content := bulletSubAll fs kv.2.content })) = l := by
    intro l
    induction l with
    | nil => intro _; rfl
    | cons kv l ih =>
      intro h
      have h0 := h kv (List.mem_cons_self kv l)
      obtain ⟨k, lvl, cnt, s0, e0⟩ := kv
      simp only [List.map_cons]
      rw [ih (fun x hx => h x (List.mem_cons_of_mem _ hx))]
      simp only at h0
      simp [h0]
  unfold removeFeatures
  by_cases hfs : fs = []
  · rw [if_pos hfs]
    subst hfs
    exact (hmapid st.sections (fun kv _ => rfl)).symm
  · rw [if_neg hfs]
    have h1 := removeFold_fst fs st.sections ([], false)
    have h2 := removeFold_snd_false fs st.sections []
    rcases hp : st.sections.foldl
        (fun acc kv =>
          let c2 := bulletSubAll fs kv.2.content
          if c2 ≠ kv.2.content then (acc.1 ++ [(kv.1, { kv.2 with content := c2 })], true)
          else (acc.1 ++ [kv], acc.2)) ([], false) with ⟨secs1, modified⟩
    rw [hp] at h1 h2
    rw [hp]
    cases modified
    · simp only [Bool.false_eq_true, if_false]
      exact (hmapid st.sections (h2 rfl)).symm
    · simp only [if_true]
      simpa using h1

/-- Witness for `c6_remove_sweep` at a concrete input. -/
theorem c6_remove_sweep_witness :
    bulletSub "Old" (String.mk "- has Old stuff".data) = "" :=
  c6_remove_sweep.2.1 "Old" "- has Old stuff".data (by decide) (by decide)

/-! ## Claim C7 — return value of `_add_features` / `_update_features` -/

/-- Claim C7 as stated is false: `_add_features` does not return "whether the
content changed" — it returns true for every non-empty feature list, even
when nothing changes.  On a document whose Features section already contains
`- A`, adding `["A"]` leaves the state exactly as loaded yet returns true. -/
theorem c7_counterexample :
    addFeatures (loadState "## Features\n- A\n") ["A"] =
      (loadState "## Features\n- A\n", true) := by
  decide

/-- Claim C7, amended: for every non-empty feature list `_add_features`
returns true unconditionally (whether or not the document content changed),
and `_update_features` is behaviourally identical to `_add_features` (it
simply forwards to it), so it returns true on every non-empty list as
well. -/
theorem c7_addFeatures_returns_true (st : UpdaterState) (features : List String)
    (h : features ≠ []) :
    (addFeatures st features).2 = true ∧
      updateFeatures st features = addFeatures st features := by
  refine ⟨?_, rfl⟩
  unfold addFeatures
  rw [if_neg h]
  cases findSection st.sections featureTitles <;> rfl

/-- Witness for `c7_addFeatures_returns_true` at a concrete input. -/
theorem c7_addFeatures_returns_true_witness :
    (addFeatures (loadState "# P\n") ["B"]).2 = true ∧
      updateFeatures (loadState "# P\n") ["B"] = addFeatures (loadState "# P\n") ["B"] :=
  c7_addFeatures_returns_true (loadState "# P\n") ["B"] (by decide)

/-! ## Claim C8 — deduplication of structured documentation entries -/

/-- Claim C8 as stated is false: `_update_documentation_entries` skips an
entry when `"### {name}"` occurs as a *substring* of the section content, not
when a sub-heading with that exact name exists.  After an entry named
`Foobar` has been rendered, an entry named `Foo` is skipped (the call returns
false and changes nothing), although no third-level sub-heading titled
exactly `Foo` exists in the section. -/
theorem c8_counterexample :
    let st1 := (updateDocEntries (loadState "## Features\n")
      [{ name := some "Foobar", description := some "d" }]).1
    updateDocEntries st1 [{ name := some "Foo", description := some "x" }] = (st1, false) ∧
      ((dictFind st1.sections "Features").getD {}).content = "\n### Foobar\nd\n\n" ∧
      (∀ l ∈ sSplitNl "\n### Foobar\nd\n\n", headerMatch l ≠ some (3, "Foo")) := by
  refine ⟨by decide, by decide, by decide⟩

/-- Claim C8, amended: when the Features section is found, a documentation
entry is skipped exactly when the text `"### {name}"` (with
`entry.get('name', '')`) occurs as a substring of the section's current
content — which also covers longer heading names sharing the prefix and
mid-line occurrences; otherwise its formatted block is appended and the call
returns true. -/
theorem c8_doc_entry_dedup_amended (st : UpdaterState) (e : DocEntry) (fs : String)
    (sec : PySection)
    (hf : findSection st.sections featureTitles = some fs)
    (hd : dictFind st.sections fs = some sec) :
    updateDocEntries st [e] =
      if sContains sec.content ("### " ++ e.name.getD "") = true then (st, false)
      else
        let secs1 := dictSet st.sections fs { sec with content := sec.content ++ fmtEntry e }
        ({ content := rebuildContent secs1, sections := secs1 }, true) := by
  unfold updateDocEntries
  rw [if_neg (by simp : ¬([e] : List DocEntry) = [])]
  rw [hf]
  simp only [hd, Option.getD_some, List.foldl_cons, List.foldl_nil]
  by_cases hc : sContains sec.content ("### " ++ e.name.getD "") = true
  · simp [hc]
  · simp only [Bool.not_eq_true] at hc
    simp [hc]

/-- Witness for `c8_doc_entry_dedup_amended` at a concrete input. -/
theorem c8_doc_entry_dedup_amended_witness :
    updateDocEntries (loadState "## Features\n") [{ name := some "N", description := some "d" }] =
      if sContains ((dictFind (loadState "## Features\n").sections "Features").getD {}).content
          ("### " ++ (some "N").getD "") = true then
        (loadState "## Features\n", false)
      else
        let secs1 := dictSet (loadState "## Features\n").sections "Features"
          { (dictFind (loadState "## Features\n").sections "Features").getD {} with
            content := ((dictFind (loadState "## Features\n").sections "Features").getD {}).content
              ++ fmtEntry { name := some "N", description := some "d" } }
        ({ content := rebuildContent secs1, sections := secs1 }, true) := by
  have h := c8_doc_entry_dedup_amended (loadState "## Features\n")
    { name := some "N", description := some "d" } "Features"
    ((dictFind (loadState "## Features\n").sections "Features").getD {})
    (by decide) (by decide)
  exact h

/-! ## Claim C9 — parsing: heading classification and line accumulation -/

/-- Claim C9 as stated is false in its "no input line is ever dropped" part:
`_parse_sections` keys sections by title in a dict, so a duplicated heading
title overwrites the earlier section.  Parsing `"# A\nx\n# A\ny"`, the
non-heading line `"x"` (the body of the first `# A`) appears in no section
of the result — it has been dropped. -/
theorem c9_counterexample :
    ("x" ∈ sSplitNl "# A\nx\n# A\ny") ∧ headerMatch "x" = none ∧
      (∀ kv ∈ parseSections "# A\nx\n# A\ny", "x" ∉ sSplitNl kv.2.content) := by
  refine ⟨by decide, by decide, by decide⟩

/-- Claim C9, amended.  Conjunct 1: a line is classified as a heading exactly
when it consists of 1–6 `#` characters, one whitespace character and at
least one further character (the stored title being the trimmed remainder).
Conjunct 2: provided the heading titles of the document are pairwise
distinct and none of them is the reserved key `preamble`, no input line is
dropped — every non-heading line ends up in the preamble or in some
section's body.  When two headings share a title the earlier section's lines
are lost (see the counterexample), which is why the distinctness proviso is
required. -/
theorem c9_parse_amended :
    (∀ (line : String) (k : Nat) (t : String),
      headerMatch line = some (k, t) ↔
        ∃ (c : Char) (rest : List Char),
          line.data = List.replicate k '#' ++ c :: rest ∧ pyIsSpace c = true ∧
          rest ≠ [] ∧ 1 ≤ k ∧ k ≤ 6 ∧ t = String.mk (stripL (c :: rest))) ∧
    (∀ content : String,
      (headingTitles (sSplitNl content)).Nodup →
      "preamble" ∉ headingTitles (sSplitNl content) →
      ∀ l ∈ sSplitNl content, headerMatch l = none →
        ∃ kv ∈ parseSections content, l ∈ sSplitNl kv.2.content) := by
  constructor
  · intro line k t
    constructor
    · intro hm
      simp only [headerMatch] at hm
      split at hm
      case isTrue h16 =>
        cases hdrop : line.data.drop ((line.data.takeWhile (fun c => c = '#')).length) with
        | nil => rw [hdrop] at hm; cases hm
        | cons c cs2 =>
          rw [hdrop] at hm
          have hm' : (if pyIsSpace c = true ∧ cs2 ≠ [] then
              some ((line.data.takeWhile (fun c => c = '#')).length,
                String.mk (stripL (c :: cs2)))
            else none) = some (k, t) := hm
          by_cases hcond : pyIsSpace c = true ∧ cs2 ≠ []
          · rw [if_pos hcond] at hm'
            injection hm' with hm'
            have hk := congrArg Prod.fst hm'
            have ht := congrArg Prod.snd hm'
            simp only at hk ht
            refine ⟨c, cs2, ?_, hcond.1, hcond.2, ?_, ?_, ht.symm⟩
            · have hrep : line.data.takeWhile (fun c => c = '#') =
                  List.replicate k '#' := by
                rw [List.eq_replicate_iff]
                refine ⟨by rw [hk], ?_⟩
                intro b hb
                have hmem := List.mem_takeWhile_imp hb
                exact of_decide_eq_true hmem
              conv_lhs => rw [← List.takeWhile_append_dropWhile (fun c => c = '#') line.data]
              rw [hrep, ← drop_takeWhile_length (fun c => c = '#') line.data, hdrop]
            · rw [← hk]; exact h16.1
            · rw [← hk]; exact h16.2
          · rw [if_neg hcond] at hm'
            cases hm'
      case isFalse => cases hm
    · rintro ⟨c, rest, hdecomp, hws, hrest, hk1, hk6, ht⟩
      have hc : c ≠ '#' := by
        intro h
        rw [h] at hws
        cases hws
      have htw : line.data.takeWhile (fun x => x = '#') = List.replicate k '#' := by
        rw [hdecomp]
        exact takeWhile_hash_replicate c rest hc k
      have hdrop : line.data.drop ((line.data.takeWhile (fun c => c = '#')).length) =
          c :: rest := by
        rw [htw, hdecomp]
        exact List.drop_left _ _
      have hcond16 : 1 ≤ (line.data.takeWhile (fun c => c = '#')).length ∧
          (line.data.takeWhile (fun c => c = '#')).length ≤ 6 := by
        rw [htw, List.length_replicate]
        exact ⟨hk1, hk6⟩
      simp only [headerMatch]
      rw [if_pos hcond16, hdrop]
      show (if pyIsSpace c = true ∧ rest ≠ [] then
          some ((line.data.takeWhile (fun c => c = '#')).length,
            String.mk (stripL (c :: rest)))
        else none) = some (k, t)
      rw [if_pos ⟨hws, hrest⟩, htw, List.length_replicate, ht]
  · intro content hnd hpre l hl hnone
    exact parseLoop_keeps l (sSplitNl content) 0 [] none [] hnd
      (fun kv hkv => absurd hkv (List.not_mem_nil kv))
      (fun t lvl h => nomatch h) hpre (sSplitNl_no_nl content)
      (fun x hx => absurd hx (List.not_mem_nil x)) List.nodup_nil
      (Or.inr (Or.inr ⟨hl, hnone⟩))

/-- Witness for `c9_parse_amended` at concrete inputs. -/
theorem c9_parse_amended_witness :
    (headerMatch "## Hi" = some (2, "Hi") ↔
      ∃ (c : Char) (rest : List Char),
        ("## Hi" : String).data = List.replicate 2 '#' ++ c :: rest ∧ pyIsSpace c = true ∧
        rest ≠ [] ∧ 1 ≤ 2 ∧ 2 ≤ 6 ∧ "Hi" = String.mk (stripL (c :: rest))) ∧
    (∃ kv ∈ parseSections "pre\n# A\nx\n", "x" ∈ sSplitNl kv.2.content) :=
  ⟨c9_parse_amended.1 "## Hi" 2 "Hi",
   c9_parse_amended.2 "pre\n# A\nx\n" (by decide) (by decide) "x" (by decide) (by decide)⟩

/-! ## Claim C10 — documentation entries suppress plain feature bullets -/

/-- Claim C10: when `documentation_entries` is non-empty,
`update_from_analysis` renders only the structured entries and completely
ignores `new_features` (the result is the same as if `new_features` were
empty); plain `- feature` bullets appear only when `documentation_entries` is
empty.  The concrete runs exhibit both sides: with a documentation entry
present the bullet `- Zebra` is not added (while `### E` is), and without
documentation entries it is. -/
theorem c10_doc_entries_exclusive :
    (∀ (st : UpdaterState) (a : Analysis), a.documentation_entries ≠ [] →
      updateFromAnalysis st a = updateFromAnalysis st { a with new_features := [] }) ∧
    (let r := updateFromAnalysis (loadState "# P\n")
        { documentation_entries := [{ name := some "E", description := some "d" }],
          new_features := ["Zebra"] }
     sContains r.1.content "- Zebra" = false ∧ sContains r.1.content "### E" = true) ∧
    sContains (updateFromAnalysis (loadState "# P\n")
      { new_features := ["Zebra"] }).1.content "- Zebra" = true := by
  refine ⟨?_, ⟨by decide, by decide⟩, by decide⟩
  intro st a h
  unfold updateFromAnalysis
  rw [if_pos h, if_pos (show ({ a with new_features := [] } : Analysis).documentation_entries ≠ [] from h)]

/-- Witness for `c10_doc_entries_exclusive` at a concrete input. -/
theorem c10_doc_entries_exclusive_witness :
    updateFromAnalysis (loadState "# W\n")
        { documentation_entries := [{ name := some "E" }], new_features := ["F"] } =
      updateFromAnalysis (loadState "# W\n")
        { ({ documentation_entries := [{ name := some "E" }], new_features := ["F"] } : Analysis)
          with new_features := [] } :=
  c10_doc_entries_exclusive.1 (loadState "# W\n")
    { documentation_entries := [{ name := some "E" }], new_features := ["F"] } (by decide)

end ReadmeUpdater
